import Mathlib

/-!
Verification of the SettleUp settlement engine.

The definitions below are a shallow embedding of the settlement logic in
`src/app/actions.ts` (the "FIXED SETTLEMENT LOGIC" version of
`calculateNetBalances` and `getOptimizedSettlements`).  Monetary values are
modelled as exact rationals; the JavaScript idiom `Number(x.toFixed(2))` is
modelled by `round2`, which follows the ECMAScript `toFixed` algorithm on the
idealised decimal value (round the magnitude to the nearest hundredth, ties
away from zero).  The database is replaced by the request list that
`getGroupRequests` would return; the calls to `markRequestAsSettled` issued by
`getOptimizedSettlements` are recorded as an explicit write list.
-/

namespace SettleUp

/-- The epsilon threshold of the engine: 0.01 currency units. -/
def eps : ℚ := 1 / 100

/-- Model of `Number(q.toFixed(2))`: round the magnitude to the nearest
multiple of 1/100, ties away from zero (ECMAScript `toFixed` first strips the
sign, then picks the larger candidate on a tie). -/
def round2 (q : ℚ) : ℚ :=
  if 0 ≤ q then (⌊q * 100 + 1 / 2⌋ : ℚ) / 100 else -((⌊-q * 100 + 1 / 2⌋ : ℚ) / 100)

/-- A participant reference as stored in a request: identifier plus email. -/
structure PartRef where
  id : String
  email : String
deriving DecidableEq, Repr

/-- Request status: only pending requests participate in aggregation. -/
inductive RStatus
  | pending
  | settled
deriving DecidableEq, Repr

/-- A money request (`Request` interface in `actions.ts`): `created_by` is the
creditor (the requester, who is owed), `request_to` is the debtor. -/
structure Request where
  rid : String
  amount : ℚ
  created_by : String
  created_by_email : String
  request_to : PartRef
  status : RStatus
deriving DecidableEq, Repr

/-- One entry of the balance map / result array (`UserBalance` interface):
positive balance means the user is owed money. -/
structure UserBalance where
  userId : String
  userEmail : String
  balance : ℚ
deriving DecidableEq, Repr

/-- A payment instruction (`SettlementTransaction` interface). -/
structure SettlementTransaction where
  from_ : PartRef
  to_ : PartRef
  amount : ℚ
deriving DecidableEq, Repr

/-- JavaScript `a || b` on strings: the empty string is the falsy case. -/
def jsOr (s fb : String) : String :=
  if s = "" then fb else s

/-- `balances.has(k)` on the insertion-ordered map, modelled as a list. -/
def hasKey (m : List UserBalance) (k : String) : Bool :=
  m.any fun e => e.userId = k

/-- `if (!balances.has(k)) balances.set(k, {email, balance: 0})`: a JS `Map`
appends new keys at the end of the iteration order. -/
def setIfAbsent (m : List UserBalance) (k e : String) : List UserBalance :=
  if hasKey m k then m else m ++ [⟨k, e, 0⟩]

/-- First pass of `calculateNetBalances`: initialise every participant of a
pending request with a zero balance, recording `created_by_email || creatorId`
(resp. `request_to.email || recipientId`) as the email label. -/
def initBalances (requests : List Request) : List UserBalance :=
  requests.foldl
    (fun m r =>
      if r.status = RStatus.pending then
        setIfAbsent
          (setIfAbsent m r.created_by (jsOr r.created_by_email r.created_by))
          r.request_to.id (jsOr r.request_to.email r.request_to.id)
      else m)
    []

/-- Update the balance stored under key `k` (a JS `Map.set` on an existing key
keeps the iteration order). -/
def updateBal (m : List UserBalance) (k : String) (f : ℚ → ℚ) : List UserBalance :=
  m.map fun e => if e.userId = k then { e with balance := f e.balance } else e

/-- Second pass of `calculateNetBalances` for a single request: pending
requests with a positive amount and distinct creator/recipient credit the
creator and debit the recipient, rounding after each update; self-requests and
non-positive amounts are skipped. -/
def applyRequest (m : List UserBalance) (r : Request) : List UserBalance :=
  if r.status = RStatus.pending then
    if r.amount ≤ 0 then m
    else if r.created_by = r.request_to.id then m
    else if hasKey m r.created_by && hasKey m r.request_to.id then
      updateBal (updateBal m r.created_by fun b => round2 (b + r.amount))
        r.request_to.id fun b => round2 (b - r.amount)
    else m
  else m

/-- The rounded, epsilon-filtered balance array, before the conservation
check (lines building `result` in `calculateNetBalances`). -/
def rawNetBalances (requests : List Request) : List UserBalance :=
  ((requests.foldl applyRequest (initBalances requests)).map
      fun e => { e with balance := round2 e.balance }).filter
    fun u => eps ≤ |u.balance|

/-- Sum of the positive balances (`totalCredits`). -/
def totalCredits (result : List UserBalance) : ℚ :=
  ((result.filter fun b => 0 < b.balance).map fun b => b.balance).sum

/-- Absolute sum of the negative balances (`totalDebits`). -/
def totalDebits (result : List UserBalance) : ℚ :=
  |((result.filter fun b => b.balance < 0).map fun b => b.balance).sum|

/-- `calculateNetBalances`, as a function of the request list of the group: build
the balance array and fail closed (empty result) if credits and debits differ
by more than epsilon. -/
def calculateNetBalances (requests : List Request) : List UserBalance :=
  let result := rawNetBalances requests
  if eps < |totalCredits result - totalDebits result| then [] else result

/-- Insert an entry into a descending-sorted list, after all entries of
greater or equal balance (so equal balances keep their existing order). -/
def insertDesc (x : UserBalance) : List UserBalance → List UserBalance
  | [] => [x]
  | y :: ys => if x.balance ≤ y.balance then y :: insertDesc x ys else x :: y :: ys

/-- `arr.sort((a, b) => b.balance - a.balance)`: a stable descending sort by
balance, as required of `Array.prototype.sort` since ES2019. -/
def sortDesc (l : List UserBalance) : List UserBalance :=
  l.foldl (fun acc x => insertDesc x acc) []

/-- The inner creditor scan for a fixed debtor `d`: skip creditors that carry the
own id of the debtor, take the first one where `min(debtor.balance,
creditor.balance) ≥ epsilon`, emit the settlement, and update or remove the
creditor.  Returns the settlement, the updated balance of the debtor, and the
updated creditor array. -/
def findCreditor (d : UserBalance) :
    List UserBalance → Option (SettlementTransaction × ℚ × List UserBalance)
  | [] => none
  | c :: cs =>
    if d.userId = c.userId then
      (findCreditor d cs).map fun r => (r.1, r.2.1, c :: r.2.2)
    else
      let t := min d.balance c.balance
      if eps ≤ t then
        let db := round2 (d.balance - t)
        let cb := round2 (c.balance - t)
        some (⟨⟨d.userId, d.userEmail⟩, ⟨c.userId, c.userEmail⟩, round2 t⟩, db,
          if cb < eps then cs else { c with balance := cb } :: cs)
      else
        (findCreditor d cs).map fun r => (r.1, r.2.1, c :: r.2.2)

/-- The outer debtor scan: try each debtor in order against the creditor
array; on success update or remove the debtor.  Returns the settlement and the
updated debtor and creditor arrays. -/
def findDebtor :
    List UserBalance → List UserBalance →
      Option (SettlementTransaction × List UserBalance × List UserBalance)
  | [], _ => none
  | d :: ds, cs =>
    match findCreditor d cs with
    | some (s, db, cs') =>
      some (s, if db < eps then ds else { d with balance := db } :: ds, cs')
    | none =>
      (findDebtor ds cs).map fun r => (r.1, d :: r.2.1, r.2.2)

/-- The `while (debtors.length > 0 && creditors.length > 0)` loop: re-sort
both arrays, scan for a valid pair, emit it, and repeat; break when no
settlement was made in a full scan.  Each settlement empties at least one side
of its pair, so `debtors.length + creditors.length` iterations of fuel always
suffice; the final arrays are returned alongside the emitted settlements. -/
def planLoop :
    Nat → List UserBalance → List UserBalance →
      List SettlementTransaction × List UserBalance × List UserBalance
  | 0, debtors, creditors => ([], debtors, creditors)
  | fuel + 1, debtors, creditors =>
    if debtors.isEmpty || creditors.isEmpty then ([], debtors, creditors)
    else
      let ds := sortDesc debtors
      let cs := sortDesc creditors
      match findDebtor ds cs with
      | none => ([], ds, cs)
      | some (s, ds', cs') =>
        let rest := planLoop fuel ds' cs'
        (s :: rest.1, rest.2.1, rest.2.2)

/-- The initial debtor array: negative balances, stored as magnitudes. -/
def debtorsInit (balances : List UserBalance) : List UserBalance :=
  (balances.filter fun b => b.balance < 0).map fun b => { b with balance := |b.balance| }

/-- The initial creditor array: positive balances. -/
def creditorsInit (balances : List UserBalance) : List UserBalance :=
  balances.filter fun b => 0 < b.balance

/-- The settlements pushed by the matching loop, before the final validity
filter. -/
def rawSettlements (balances : List UserBalance) : List SettlementTransaction :=
  (planLoop ((debtorsInit balances).length + (creditorsInit balances).length)
      (debtorsInit balances) (creditorsInit balances)).1

/-- The planning part of `getOptimizedSettlements` as a function of the
balance array: run the matching loop and keep only settlements whose endpoint
emails differ and whose amount is at least epsilon. -/
def planFromBalances (balances : List UserBalance) : List SettlementTransaction :=
  if balances.isEmpty then []
  else
    (rawSettlements balances).filter fun s =>
      s.from_.email ≠ s.to_.email ∧ eps ≤ s.amount

/-- The `markRequestAsSettled` calls issued for every pending request:
pairs of request id and `created_by`. -/
def pendingWrites (requests : List Request) : List (String × String) :=
  (requests.filter fun r => r.status = RStatus.pending).map fun r => (r.rid, r.created_by)

/-- `getOptimizedSettlements`, as a function of the request list of the group.  The
first component is the returned settlement list; the second records the
`markRequestAsSettled` write-backs the function itself performs (it marks
every pending request settled whenever the balance array or the filtered
settlement list is empty). -/
def getOptimizedSettlements (requests : List Request) :
    List SettlementTransaction × List (String × String) :=
  let balances := calculateNetBalances requests
  let valid := planFromBalances balances
  if valid.isEmpty then (valid, pendingWrites requests) else (valid, [])

/-- `getGroupRequests` absorbs a failed database fetch into an empty request
list (its `catch` block returns `{requests: []}`). -/
def getGroupRequests (fetch : Except String (List Request)) : List Request :=
  match fetch with
  | Except.ok rs => rs
  | Except.error _ => []

/-- `calculateNetBalances` including the fallible fetch of the requests of the group. -/
def calculateNetBalancesE (fetch : Except String (List Request)) : List UserBalance :=
  calculateNetBalances (getGroupRequests fetch)

/-- `getOptimizedSettlements` including the fallible fetch of the requests of the group. -/
def getOptimizedSettlementsE (fetch : Except String (List Request)) :
    List SettlementTransaction × List (String × String) :=
  getOptimizedSettlements (getGroupRequests fetch)

/-- The signed settlement total of one participant: amounts received minus
amounts paid. -/
def signedSum (settlements : List SettlementTransaction) (uid : String) : ℚ :=
  ((settlements.filter fun s => s.to_.id = uid).map fun s => s.amount).sum
    - ((settlements.filter fun s => s.from_.id = uid).map fun s => s.amount).sum

/-- Sum of the balances held under one user id in a balance array. -/
def keyBal (l : List UserBalance) (uid : String) : ℚ :=
  ((l.filter fun e => e.userId = uid).map fun e => e.balance).sum

/-- Total balance of an array. -/
def totalBal (l : List UserBalance) : ℚ :=
  (l.map fun e => e.balance).sum

/-- A rational is a whole number of cents. -/
def isCents (q : ℚ) : Prop :=
  ∃ n : ℤ, q = n / 100

/-! ### Arithmetic facts about `round2` and cent amounts -/

theorem eps_pos : 0 < eps := by norm_num [eps]

theorem round2_zero : round2 0 = 0 := by norm_num [round2]

theorem isCents_round2 (q : ℚ) : isCents (round2 q) := by
  unfold round2
  split
  · exact ⟨⌊q * 100 + 1 / 2⌋, rfl⟩
  · exact ⟨-⌊-q * 100 + 1 / 2⌋, by push_cast; ring⟩

theorem round2_cents (n : ℤ) : round2 ((n : ℚ) / 100) = (n : ℚ) / 100 := by
  have h100 : ((n : ℚ) / 100) * 100 = (n : ℚ) := by ring
  rcases le_or_lt 0 n with hn | hn
  · have h0 : (0 : ℚ) ≤ (n : ℚ) / 100 := by positivity
    rw [round2, if_pos h0, h100]
    have : (n : ℚ) + 1 / 2 = 1 / 2 + (n : ℚ) := by ring
    rw [this, Int.floor_add_int (1 / 2 : ℚ) n]
    norm_num
  · have hq : (n : ℚ) / 100 < 0 := by
      apply div_neg_of_neg_of_pos
      · exact_mod_cast hn
      · norm_num
    rw [round2, if_neg (not_le.mpr hq)]
    have hmul : -((n : ℚ) / 100) * 100 = ((-n : ℤ) : ℚ) := by push_cast; ring
    rw [hmul]
    have : ((-n : ℤ) : ℚ) + 1 / 2 = 1 / 2 + ((-n : ℤ) : ℚ) := by ring
    rw [this, Int.floor_add_int (1 / 2 : ℚ) (-n)]
    push_cast
    ring_nf

theorem round2_fix {q : ℚ} (h : isCents q) : round2 q = q := by
  obtain ⟨n, rfl⟩ := h
  exact round2_cents n

theorem round2_idem (q : ℚ) : round2 (round2 q) = round2 q :=
  round2_fix (isCents_round2 q)

theorem isCents_zero : isCents 0 :=
  ⟨0, by norm_num⟩

theorem isCents_eps : isCents eps :=
  ⟨1, by norm_num [eps]⟩

theorem isCents.add {a b : ℚ} (ha : isCents a) (hb : isCents b) : isCents (a + b) := by
  obtain ⟨n, rfl⟩ := ha
  obtain ⟨m, rfl⟩ := hb
  exact ⟨n + m, by push_cast; ring⟩

theorem isCents.sub {a b : ℚ} (ha : isCents a) (hb : isCents b) : isCents (a - b) := by
  obtain ⟨n, rfl⟩ := ha
  obtain ⟨m, rfl⟩ := hb
  exact ⟨n - m, by push_cast; ring⟩

theorem isCents.neg {a : ℚ} (ha : isCents a) : isCents (-a) := by
  obtain ⟨n, rfl⟩ := ha
  exact ⟨-n, by push_cast; ring⟩

theorem isCents.abs {a : ℚ} (ha : isCents a) : isCents |a| := by
  rcases abs_choice a with h | h
  · rw [h]; exact ha
  · rw [h]; exact ha.neg

theorem isCents.min {a b : ℚ} (ha : isCents a) (hb : isCents b) : isCents (min a b) := by
  rcases min_choice a b with h | h
  · rw [h]; exact ha
  · rw [h]; exact hb

theorem isCents_eq_zero_of_abs_lt {q : ℚ} (h : isCents q) (h1 : |q| < eps) : q = 0 := by
  obtain ⟨n, rfl⟩ := h
  have h2 : |(n : ℚ)| / 100 < 1 / 100 := by
    have : |(n : ℚ) / 100| = |(n : ℚ)| / |(100 : ℚ)| := abs_div (n : ℚ) 100
    rw [this] at h1
    simpa [eps] using h1
  have h3 : |(n : ℚ)| < 1 := by linarith
  have h4 : |n| < 1 := by exact_mod_cast h3
  have h5 : n = 0 := by
    rcases abs_cases n with ⟨ha, _⟩ | ⟨ha, _⟩ <;> omega
  simp [h5]

/-! ### Sum-splitting facts used by the conservation check -/

theorem sum_nonpos_of_forall {l : List ℚ} (h : ∀ x ∈ l, x ≤ 0) : l.sum ≤ 0 := by
  induction l with
  | nil => simp
  | cons x xs ih =>
    simp only [List.sum_cons]
    have hx := h x (List.mem_cons_self x xs)
    have hxs := ih fun y hy => h y (List.mem_cons_of_mem x hy)
    linarith

theorem totalDebits_eq_neg_sum (l : List UserBalance) :
    totalDebits l = -((l.filter fun b => b.balance < 0).map fun b => b.balance).sum := by
  unfold totalDebits
  apply abs_of_nonpos
  apply sum_nonpos_of_forall
  intro x hx
  obtain ⟨b, hb, rfl⟩ := List.mem_map.mp hx
  have := List.of_mem_filter hb
  have : b.balance < 0 := by simpa using this
  linarith

theorem totalBal_split (l : List UserBalance) (h : ∀ e ∈ l, e.balance ≠ 0) :
    totalBal l =
      totalCredits l + ((l.filter fun b => b.balance < 0).map fun b => b.balance).sum := by
  induction l with
  | nil => simp [totalBal, totalCredits]
  | cons e l ih =>
    have he := h e (List.mem_cons_self e l)
    have ih := ih fun x hx => h x (List.mem_cons_of_mem e hx)
    rcases lt_or_gt_of_ne he with hneg | hpos
    · have h1 : (decide (0 < e.balance)) = false := by
        simp [not_lt.mpr (le_of_lt hneg)]
      have h2 : (decide (e.balance < 0)) = true := by simp [hneg]
      simp only [totalBal, totalCredits, List.map_cons, List.sum_cons,
        List.filter_cons, h1, h2, if_true, if_false, Bool.false_eq_true] at ih ⊢
      rw [ih]
      ring
    · have h1 : (decide (0 < e.balance)) = true := by simp [hpos]
      have h2 : (decide (e.balance < 0)) = false := by
        simp [not_lt.mpr (le_of_lt hpos)]
      simp only [totalBal, totalCredits, List.map_cons, List.sum_cons,
        List.filter_cons, h1, h2, if_true, if_false, Bool.false_eq_true] at ih ⊢
      rw [ih]
      ring

theorem totalBal_eq_credits_sub_debits (l : List UserBalance)
    (h : ∀ e ∈ l, e.balance ≠ 0) :
    totalBal l = totalCredits l - totalDebits l := by
  rw [totalBal_split l h, totalDebits_eq_neg_sum]
  ring

theorem rawNetBalances_balance_ne_zero (rs : List Request) :
    ∀ e ∈ rawNetBalances rs, e.balance ≠ 0 := by
  intro e he
  have h1 := List.of_mem_filter he
  have h2 : eps ≤ |e.balance| := by simpa using h1
  intro h0
  rw [h0] at h2
  simp at h2
  have := eps_pos
  linarith

theorem calculateNetBalances_def (rs : List Request) :
    calculateNetBalances rs =
      if eps < |totalCredits (rawNetBalances rs) - totalDebits (rawNetBalances rs)| then []
      else rawNetBalances rs :=
  rfl

theorem calculateNetBalances_cases (rs : List Request) :
    calculateNetBalances rs = [] ∨ calculateNetBalances rs = rawNetBalances rs := by
  rw [calculateNetBalances_def]
  split
  · exact Or.inl rfl
  · exact Or.inr rfl

set_option maxRecDepth 10000

attribute [local semireducible] Rat.add Rat.mul Rat.inv Rat.sub Rat.ofScientific

/-- Requests whose per-step rounding drifts the totals apart: three half-cent
requests against a debtor holding a large balance inflate the credit side by
0.01 each, so credits and debits end up 0.03 apart and the conservation
check fails. -/
def driftRequests : List Request :=
  [⟨"r1", 10, "B", "b@x", ⟨"C", "c@x"⟩, RStatus.pending⟩,
   ⟨"r2", 1 / 200, "A", "a@x", ⟨"B", "b@x"⟩, RStatus.pending⟩,
   ⟨"r3", 1 / 200, "A", "a@x", ⟨"B", "b@x"⟩, RStatus.pending⟩,
   ⟨"r4", 1 / 200, "A", "a@x", ⟨"B", "b@x"⟩, RStatus.pending⟩]

theorem conservation_helper (rs : List Request) :
    |totalBal (calculateNetBalances rs)| ≤ eps := by
  by_cases hgap :
      eps < |totalCredits (rawNetBalances rs) - totalDebits (rawNetBalances rs)|
  · have hz : calculateNetBalances rs = [] := by
      rw [calculateNetBalances_def, if_pos hgap]
    rw [hz]
    simp [totalBal]
    exact le_of_lt eps_pos
  · have hz : calculateNetBalances rs = rawNetBalances rs := by
      rw [calculateNetBalances_def, if_neg hgap]
    rw [hz, totalBal_eq_credits_sub_debits _ (rawNetBalances_balance_ne_zero rs)]
    exact not_lt.mp hgap

theorem gap_fail_helper (rs : List Request)
    (hgap : eps < |totalCredits (rawNetBalances rs) - totalDebits (rawNetBalances rs)|) :
    calculateNetBalances rs = [] := by
  rw [calculateNetBalances_def, if_pos hgap]

/-- C1: for every list of obligations, the balance set returned by
`calculateNetBalances` satisfies the conservation invariant — the sum of all
returned net balances is zero within epsilon (0.01) — and if the positive and
negative totals of the aggregated balances differ by more than epsilon, the
call fails closed and returns the empty balance set. -/
theorem calculateNetBalances_conservation_or_fail (rs : List Request) :
    |totalBal (calculateNetBalances rs)| ≤ eps ∧
      (eps < |totalCredits (rawNetBalances rs) - totalDebits (rawNetBalances rs)| →
        calculateNetBalances rs = []) :=
  ⟨conservation_helper rs, gap_fail_helper rs⟩

/-- Witness for C1: on `driftRequests` the conservation gap is 0.03 > 0.01 and
the aggregator indeed returns the empty balance set. -/
theorem calculateNetBalances_conservation_or_fail_witness :
    calculateNetBalances driftRequests = [] :=
  (calculateNetBalances_conservation_or_fail driftRequests).2 (by decide)

/-! ### Per-key and total balance bookkeeping -/

theorem keyBal_nil (uid : String) : keyBal [] uid = 0 := rfl

theorem keyBal_cons (e : UserBalance) (l : List UserBalance) (uid : String) :
    keyBal (e :: l) uid = (if e.userId = uid then e.balance else 0) + keyBal l uid := by
  unfold keyBal
  rcases eq_or_ne e.userId uid with h | h
  · simp [List.filter_cons, h]
  · simp [List.filter_cons, h]

theorem totalBal_nil : totalBal [] = 0 := rfl

theorem totalBal_cons (e : UserBalance) (l : List UserBalance) :
    totalBal (e :: l) = e.balance + totalBal l := by
  simp [totalBal]

theorem signedSum_nil (uid : String) : signedSum [] uid = 0 := by
  simp [signedSum]

theorem signedSum_cons (s : SettlementTransaction) (l : List SettlementTransaction)
    (uid : String) :
    signedSum (s :: l) uid =
      ((if s.to_.id = uid then s.amount else 0) - (if s.from_.id = uid then s.amount else 0))
        + signedSum l uid := by
  unfold signedSum
  rcases eq_or_ne s.to_.id uid with h1 | h1 <;> rcases eq_or_ne s.from_.id uid with h2 | h2 <;>
    simp [List.filter_cons, h1, h2] <;> ring

theorem keyBal_nonneg (l : List UserBalance) (uid : String)
    (h : ∀ e ∈ l, 0 ≤ e.balance) : 0 ≤ keyBal l uid := by
  induction l with
  | nil => simp [keyBal_nil]
  | cons e l ih =>
    rw [keyBal_cons]
    have he := h e (List.mem_cons_self e l)
    have ih := ih fun x hx => h x (List.mem_cons_of_mem e hx)
    split <;> linarith

theorem keyBal_le_totalBal (l : List UserBalance) (uid : String)
    (h : ∀ e ∈ l, 0 ≤ e.balance) : keyBal l uid ≤ totalBal l := by
  induction l with
  | nil => simp [keyBal_nil, totalBal_nil]
  | cons e l ih =>
    rw [keyBal_cons, totalBal_cons]
    have he := h e (List.mem_cons_self e l)
    have ih := ih fun x hx => h x (List.mem_cons_of_mem e hx)
    split <;> linarith

theorem totalBal_nonneg (l : List UserBalance) (h : ∀ e ∈ l, 0 ≤ e.balance) :
    0 ≤ totalBal l := by
  induction l with
  | nil => simp [totalBal_nil]
  | cons e l ih =>
    rw [totalBal_cons]
    have he := h e (List.mem_cons_self e l)
    have ih := ih fun x hx => h x (List.mem_cons_of_mem e hx)
    linarith

/-! ### The stable descending sort -/

theorem insertDesc_perm (x : UserBalance) (l : List UserBalance) :
    (insertDesc x l).Perm (x :: l) := by
  induction l with
  | nil => simp [insertDesc]
  | cons y ys ih =>
    unfold insertDesc
    split
    · exact ((ih.cons y).trans (List.Perm.swap x y ys)).symm.symm
    · exact List.Perm.refl _

theorem sortDesc_perm (l : List UserBalance) : (sortDesc l).Perm l := by
  suffices h : ∀ acc : List UserBalance,
      (l.foldl (fun acc x => insertDesc x acc) acc).Perm (acc ++ l) by
    simpa using h []
  induction l with
  | nil => intro acc; simp
  | cons x xs ih =>
    intro acc
    simp only [List.foldl_cons]
    refine (ih (insertDesc x acc)).trans ?_
    have h1 : (insertDesc x acc ++ xs).Perm ((x :: acc) ++ xs) :=
      (insertDesc_perm x acc).append_right xs
    refine h1.trans ?_
    simp only [List.cons_append]
    exact List.perm_middle.symm

theorem sortDesc_length (l : List UserBalance) : (sortDesc l).length = l.length :=
  (sortDesc_perm l).length_eq

theorem sortDesc_mem (l : List UserBalance) (e : UserBalance) :
    e ∈ sortDesc l ↔ e ∈ l :=
  (sortDesc_perm l).mem_iff

theorem sortDesc_keyBal (l : List UserBalance) (uid : String) :
    keyBal (sortDesc l) uid = keyBal l uid := by
  unfold keyBal
  exact (((sortDesc_perm l).filter _).map _).sum_eq

theorem sortDesc_totalBal (l : List UserBalance) :
    totalBal (sortDesc l) = totalBal l := by
  unfold totalBal
  exact ((sortDesc_perm l).map _).sum_eq

theorem sortDesc_isEmpty (l : List UserBalance) :
    (sortDesc l).isEmpty = l.isEmpty := by
  rcases l with - | ⟨x, xs⟩
  · rfl
  · have : x ∈ sortDesc (x :: xs) := (sortDesc_mem _ x).mpr (List.mem_cons_self x xs)
    rcases h : sortDesc (x :: xs) with - | ⟨y, ys⟩
    · rw [h] at this
      simp at this
    · rfl

/-! ### Properties of the creditor scan -/

theorem findCreditor_some {d : UserBalance} (cs : List UserBalance) :
    ∀ {s : SettlementTransaction} {db : ℚ} {cs' : List UserBalance},
      findCreditor d cs = some (s, db, cs') →
      ∃ c ∈ cs, d.userId ≠ c.userId ∧ eps ≤ min d.balance c.balance ∧
        s = ⟨⟨d.userId, d.userEmail⟩, ⟨c.userId, c.userEmail⟩,
          round2 (min d.balance c.balance)⟩ ∧
        db = round2 (d.balance - min d.balance c.balance) := by
  induction cs with
  | nil => intro s db cs' h; simp [findCreditor] at h
  | cons c cs ih =>
    intro s db cs' h
    simp only [findCreditor] at h
    by_cases hid : d.userId = c.userId
    · rw [if_pos hid] at h
      rcases Option.map_eq_some'.mp h with ⟨⟨s₀, db₀, cs₀⟩, hfc, heq⟩
      simp only [Prod.mk.injEq] at heq
      obtain ⟨h1, h2, h3⟩ := heq
      subst h1
      subst h2
      obtain ⟨c₀, hc₀, hx⟩ := ih hfc
      exact ⟨c₀, List.mem_cons_of_mem c hc₀, hx⟩
    · rw [if_neg hid] at h
      by_cases ht : eps ≤ min d.balance c.balance
      · rw [if_pos ht] at h
        simp only [Option.some.injEq, Prod.mk.injEq] at h
        obtain ⟨h1, h2, h3⟩ := h
        exact ⟨c, List.mem_cons_self c cs, hid, ht, h1.symm, h2.symm⟩
      · rw [if_neg ht] at h
        rcases Option.map_eq_some'.mp h with ⟨⟨s₀, db₀, cs₀⟩, hfc, heq⟩
        simp only [Prod.mk.injEq] at heq
        obtain ⟨h1, h2, h3⟩ := heq
        subst h1
        subst h2
        obtain ⟨c₀, hc₀, hx⟩ := ih hfc
        exact ⟨c₀, List.mem_cons_of_mem c hc₀, hx⟩

theorem findCreditor_length {d : UserBalance} (cs : List UserBalance) :
    ∀ {s : SettlementTransaction} {db : ℚ} {cs' : List UserBalance},
      findCreditor d cs = some (s, db, cs') →
      cs'.length ≤ cs.length ∧ (db < eps ∨ cs'.length < cs.length) := by
  induction cs with
  | nil => intro s db cs' h; simp [findCreditor] at h
  | cons c cs ih =>
    intro s db cs' h
    simp only [findCreditor] at h
    by_cases hid : d.userId = c.userId
    · rw [if_pos hid] at h
      rcases Option.map_eq_some'.mp h with ⟨⟨s₀, db₀, cs₀⟩, hfc, heq⟩
      simp only [Prod.mk.injEq] at heq
      obtain ⟨h1, h2, h3⟩ := heq
      subst h2
      subst h3
      obtain ⟨ha, hb⟩ := ih hfc
      constructor
      · simp only [List.length_cons]
        omega
      · rcases hb with hb | hb
        · exact Or.inl hb
        · refine Or.inr ?_
          simp only [List.length_cons]
          omega
    · rw [if_neg hid] at h
      by_cases ht : eps ≤ min d.balance c.balance
      · rw [if_pos ht] at h
        simp only [Option.some.injEq, Prod.mk.injEq] at h
        obtain ⟨h1, h2, h3⟩ := h
        subst h2
        subst h3
        rcases le_total d.balance c.balance with hdc | hdc
        · have hmin : min d.balance c.balance = d.balance := min_eq_left hdc
          have hdb : round2 (d.balance - min d.balance c.balance) = 0 := by
            rw [hmin, sub_self, round2_zero]
          constructor
          · split
            · simp only [List.length_cons]
              omega
            · simp only [List.length_cons]
              omega
          · exact Or.inl (by rw [hdb]; exact eps_pos)
        · rcases eq_or_lt_of_le hdc with hdc' | hdc'
          · have hmin : min d.balance c.balance = d.balance := min_eq_left (le_of_eq hdc'.symm)
            have hdb : round2 (d.balance - min d.balance c.balance) = 0 := by
              rw [hmin, sub_self, round2_zero]
            constructor
            · split
              · simp only [List.length_cons]
                omega
              · simp only [List.length_cons]
                omega
            · exact Or.inl (by rw [hdb]; exact eps_pos)
          · have hmin : min d.balance c.balance = c.balance := min_eq_right hdc
            have hcb : round2 (c.balance - min d.balance c.balance) = 0 := by
              rw [hmin, sub_self, round2_zero]
            have hlt : round2 (c.balance - min d.balance c.balance) < eps := by
              rw [hcb]; exact eps_pos
            rw [if_pos hlt]
            exact ⟨Nat.le_succ _, Or.inr (Nat.lt_succ_self _)⟩
      · rw [if_neg ht] at h
        rcases Option.map_eq_some'.mp h with ⟨⟨s₀, db₀, cs₀⟩, hfc, heq⟩
        simp only [Prod.mk.injEq] at heq
        obtain ⟨h1, h2, h3⟩ := heq
        subst h2
        subst h3
        obtain ⟨ha, hb⟩ := ih hfc
        constructor
        · simp only [List.length_cons]
          omega
        · rcases hb with hb | hb
          · exact Or.inl hb
          · refine Or.inr ?_
            simp only [List.length_cons]
            omega

theorem findCreditor_prov {d : UserBalance} (cs : List UserBalance) :
    ∀ {s : SettlementTransaction} {db : ℚ} {cs' : List UserBalance},
      findCreditor d cs = some (s, db, cs') →
      ∀ e ∈ cs', ∃ c₀ ∈ cs, e.userId = c₀.userId ∧ e.userEmail = c₀.userEmail := by
  induction cs with
  | nil => intro s db cs' h; simp [findCreditor] at h
  | cons c cs ih =>
    intro s db cs' h
    simp only [findCreditor] at h
    by_cases hid : d.userId = c.userId
    · rw [if_pos hid] at h
      rcases Option.map_eq_some'.mp h with ⟨⟨s₀, db₀, cs₀⟩, hfc, heq⟩
      simp only [Prod.mk.injEq] at heq
      obtain ⟨h1, h2, h3⟩ := heq
      subst h3
      intro e he
      rcases List.mem_cons.mp he with rfl | he
      · exact ⟨e, List.mem_cons_self e cs, rfl, rfl⟩
      · obtain ⟨c₀, hc₀, hx⟩ := ih hfc e he
        exact ⟨c₀, List.mem_cons_of_mem c hc₀, hx⟩
    · rw [if_neg hid] at h
      by_cases ht : eps ≤ min d.balance c.balance
      · rw [if_pos ht] at h
        simp only [Option.some.injEq, Prod.mk.injEq] at h
        obtain ⟨h1, h2, h3⟩ := h
        subst h3
        intro e he
        split at he
        · exact ⟨e, List.mem_cons_of_mem c he, rfl, rfl⟩
        · rcases List.mem_cons.mp he with rfl | he
          · exact ⟨c, List.mem_cons_self c cs, rfl, rfl⟩
          · exact ⟨e, List.mem_cons_of_mem c he, rfl, rfl⟩
      · rw [if_neg ht] at h
        rcases Option.map_eq_some'.mp h with ⟨⟨s₀, db₀, cs₀⟩, hfc, heq⟩
        simp only [Prod.mk.injEq] at heq
        obtain ⟨h1, h2, h3⟩ := heq
        subst h3
        intro e he
        rcases List.mem_cons.mp he with rfl | he
        · exact ⟨e, List.mem_cons_self e cs, rfl, rfl⟩
        · obtain ⟨c₀, hc₀, hx⟩ := ih hfc e he
          exact ⟨c₀, List.mem_cons_of_mem c hc₀, hx⟩

theorem findCreditor_bal {d : UserBalance} (cs : List UserBalance) :
    ∀ {s : SettlementTransaction} {db : ℚ} {cs' : List UserBalance},
      (∀ c ∈ cs, eps ≤ c.balance) →
      findCreditor d cs = some (s, db, cs') →
      ∀ e ∈ cs', eps ≤ e.balance := by
  induction cs with
  | nil => intro s db cs' hcs h; simp [findCreditor] at h
  | cons c cs ih =>
    intro s db cs' hcs h
    have hc := hcs c (List.mem_cons_self c cs)
    have hcs₂ : ∀ x ∈ cs, eps ≤ x.balance :=
      fun x hx => hcs x (List.mem_cons_of_mem c hx)
    simp only [findCreditor] at h
    by_cases hid : d.userId = c.userId
    · rw [if_pos hid] at h
      rcases Option.map_eq_some'.mp h with ⟨⟨s₀, db₀, cs₀⟩, hfc, heq⟩
      simp only [Prod.mk.injEq] at heq
      obtain ⟨h1, h2, h3⟩ := heq
      subst h3
      intro e he
      rcases List.mem_cons.mp he with rfl | he
      · exact hc
      · exact ih hcs₂ hfc e he
    · rw [if_neg hid] at h
      by_cases ht : eps ≤ min d.balance c.balance
      · rw [if_pos ht] at h
        simp only [Option.some.injEq, Prod.mk.injEq] at h
        obtain ⟨h1, h2, h3⟩ := h
        subst h3
        intro e he
        by_cases hcb : round2 (c.balance - min d.balance c.balance) < eps
        · rw [if_pos hcb] at he
          exact hcs₂ e he
        · rw [if_neg hcb] at he
          rcases List.mem_cons.mp he with rfl | he
          · exact not_lt.mp hcb
          · exact hcs₂ e he
      · rw [if_neg ht] at h
        rcases Option.map_eq_some'.mp h with ⟨⟨s₀, db₀, cs₀⟩, hfc, heq⟩
        simp only [Prod.mk.injEq] at heq
        obtain ⟨h1, h2, h3⟩ := heq
        subst h3
        intro e he
        rcases List.mem_cons.mp he with rfl | he
        · exact hc
        · exact ih hcs₂ hfc e he

theorem findCreditor_cents {d : UserBalance} (cs : List UserBalance) :
    ∀ {s : SettlementTransaction} {db : ℚ} {cs' : List UserBalance},
      (∀ c ∈ cs, isCents c.balance) →
      findCreditor d cs = some (s, db, cs') →
      isCents db ∧ ∀ e ∈ cs', isCents e.balance := by
  induction cs with
  | nil => intro s db cs' hcs h; simp [findCreditor] at h
  | cons c cs ih =>
    intro s db cs' hcs h
    have hc := hcs c (List.mem_cons_self c cs)
    have hcs₂ : ∀ x ∈ cs, isCents x.balance :=
      fun x hx => hcs x (List.mem_cons_of_mem c hx)
    simp only [findCreditor] at h
    by_cases hid : d.userId = c.userId
    · rw [if_pos hid] at h
      rcases Option.map_eq_some'.mp h with ⟨⟨s₀, db₀, cs₀⟩, hfc, heq⟩
      simp only [Prod.mk.injEq] at heq
      obtain ⟨h1, h2, h3⟩ := heq
      subst h2
      subst h3
      obtain ⟨ha, hb⟩ := ih hcs₂ hfc
      refine ⟨ha, ?_⟩
      intro e he
      rcases List.mem_cons.mp he with rfl | he
      · exact hc
      · exact hb e he
    · rw [if_neg hid] at h
      by_cases ht : eps ≤ min d.balance c.balance
      · rw [if_pos ht] at h
        simp only [Option.some.injEq, Prod.mk.injEq] at h
        obtain ⟨h1, h2, h3⟩ := h
        subst h2
        subst h3
        refine ⟨isCents_round2 _, ?_⟩
        intro e he
        by_cases hcb : round2 (c.balance - min d.balance c.balance) < eps
        · rw [if_pos hcb] at he
          exact hcs₂ e he
        · rw [if_neg hcb] at he
          rcases List.mem_cons.mp he with rfl | he
          · exact isCents_round2 _
          · exact hcs₂ e he
      · rw [if_neg ht] at h
        rcases Option.map_eq_some'.mp h with ⟨⟨s₀, db₀, cs₀⟩, hfc, heq⟩
        simp only [Prod.mk.injEq] at heq
        obtain ⟨h1, h2, h3⟩ := heq
        subst h2
        subst h3
        obtain ⟨ha, hb⟩ := ih hcs₂ hfc
        refine ⟨ha, ?_⟩
        intro e he
        rcases List.mem_cons.mp he with rfl | he
        · exact hc
        · exact hb e he

theorem round2_ge_eps {t : ℚ} (ht : eps ≤ t) : eps ≤ round2 t := by
  have h0 : (0 : ℚ) ≤ t := le_trans (le_of_lt eps_pos) ht
  rw [round2, if_pos h0]
  have h1 : (1 : ℚ) ≤ t * 100 + 1 / 2 := by
    have : (1 : ℚ) ≤ t * 100 := by
      have := mul_le_mul_of_nonneg_right ht (by norm_num : (0 : ℚ) ≤ 100)
      simpa [eps] using this
    linarith
  have h2 : (1 : ℤ) ≤ ⌊t * 100 + 1 / 2⌋ := by
    rw [Int.le_floor]
    exact_mod_cast h1
  rw [eps]
  have h3 : (1 : ℚ) ≤ (⌊t * 100 + 1 / 2⌋ : ℚ) := by exact_mod_cast h2
  linarith

theorem findCreditor_ledger {d : UserBalance} (cs : List UserBalance) :
    ∀ {s : SettlementTransaction} {db : ℚ} {cs' : List UserBalance},
      isCents d.balance →
      (∀ c ∈ cs, isCents c.balance) →
      findCreditor d cs = some (s, db, cs') →
      eps ≤ s.amount ∧ s.amount ≤ d.balance ∧ db = d.balance - s.amount ∧
        (∀ uid, keyBal cs' uid = keyBal cs uid - (if s.to_.id = uid then s.amount else 0)) ∧
        totalBal cs' = totalBal cs - s.amount := by
  induction cs with
  | nil => intro s db cs' hd hcs h; simp [findCreditor] at h
  | cons c cs ih =>
    intro s db cs' hd hcs h
    have hc := hcs c (List.mem_cons_self c cs)
    have hcs₂ : ∀ x ∈ cs, isCents x.balance :=
      fun x hx => hcs x (List.mem_cons_of_mem c hx)
    simp only [findCreditor] at h
    by_cases hid : d.userId = c.userId
    · rw [if_pos hid] at h
      rcases Option.map_eq_some'.mp h with ⟨⟨s₀, db₀, cs₀⟩, hfc, heq⟩
      simp only [Prod.mk.injEq] at heq
      obtain ⟨h1, h2, h3⟩ := heq
      subst h1
      subst h2
      subst h3
      obtain ⟨ha, hb, hdb, hkey, htot⟩ := ih hd hcs₂ hfc
      refine ⟨ha, hb, hdb, ?_, ?_⟩
      · intro uid
        rw [keyBal_cons, keyBal_cons, hkey uid]
        ring
      · rw [totalBal_cons, totalBal_cons, htot]
        ring
    · rw [if_neg hid] at h
      by_cases ht : eps ≤ min d.balance c.balance
      · rw [if_pos ht] at h
        simp only [Option.some.injEq, Prod.mk.injEq] at h
        obtain ⟨h1, h2, h3⟩ := h
        subst h2
        subst h3
        have hct : isCents (min d.balance c.balance) := hd.min hc
        have hfix : round2 (min d.balance c.balance) = min d.balance c.balance :=
          round2_fix hct
        have hamt : s.amount = min d.balance c.balance := by
          rw [← h1, hfix]
        have hto : s.to_.id = c.userId := by rw [← h1]
        have hdbv : round2 (d.balance - min d.balance c.balance) =
            d.balance - min d.balance c.balance :=
          round2_fix (hd.sub hct)
        have hcbv : round2 (c.balance - min d.balance c.balance) =
            c.balance - min d.balance c.balance :=
          round2_fix (hc.sub hct)
        refine ⟨by rw [hamt]; exact ht, by rw [hamt]; exact min_le_left _ _,
          by rw [hdbv, hamt], ?_, ?_⟩
        · intro uid
          by_cases hcb : round2 (c.balance - min d.balance c.balance) < eps
          · have hz : c.balance - min d.balance c.balance = 0 := by
              apply isCents_eq_zero_of_abs_lt (hc.sub hct)
              rw [abs_of_nonneg (by

                have := min_le_right d.balance c.balance
                linarith)]
              rw [← hcbv]
              exact hcb
            have hct2 : min d.balance c.balance = c.balance := by linarith
            rw [if_pos hcb]
            rw [keyBal_cons, hamt, hto, hct2]
            rcases eq_or_ne c.userId uid with hu | hu
            · simp only [if_pos hu]
              ring
            · simp only [if_neg hu]
              ring
          · rw [if_neg hcb]
            rw [keyBal_cons, keyBal_cons, hamt, hto, hcbv]
            rcases eq_or_ne c.userId uid with hu | hu
            · simp only [hu, eq_self_iff_true, if_true]
              ring
            · simp only [if_neg hu]
              ring
        · by_cases hcb : round2 (c.balance - min d.balance c.balance) < eps
          · have hz : c.balance - min d.balance c.balance = 0 := by
              apply isCents_eq_zero_of_abs_lt (hc.sub hct)
              rw [abs_of_nonneg (by

                have := min_le_right d.balance c.balance
                linarith)]
              rw [← hcbv]
              exact hcb
            have hct2 : min d.balance c.balance = c.balance := by linarith
            rw [if_pos hcb, totalBal_cons, hamt, hct2]
            ring
          · rw [if_neg hcb, totalBal_cons, totalBal_cons, hamt, hcbv]
            ring
      · rw [if_neg ht] at h
        rcases Option.map_eq_some'.mp h with ⟨⟨s₀, db₀, cs₀⟩, hfc, heq⟩
        simp only [Prod.mk.injEq] at heq
        obtain ⟨h1, h2, h3⟩ := heq
        subst h1
        subst h2
        subst h3
        obtain ⟨ha, hb, hdb, hkey, htot⟩ := ih hd hcs₂ hfc
        refine ⟨ha, hb, hdb, ?_, ?_⟩
        · intro uid
          rw [keyBal_cons, keyBal_cons, hkey uid]
          ring
        · rw [totalBal_cons, totalBal_cons, htot]
          ring

/-! ### Properties of the debtor scan -/

theorem findDebtor_emit (ds cs : List UserBalance) :
    ∀ {s : SettlementTransaction} {ds' cs' : List UserBalance},
      findDebtor ds cs = some (s, ds', cs') →
      s.from_.id ≠ s.to_.id ∧ s.amount = round2 s.amount ∧
        (∃ d ∈ ds, s.from_.id = d.userId ∧ s.from_.email = d.userEmail) ∧
        (∃ c ∈ cs, s.to_.id = c.userId ∧ s.to_.email = c.userEmail) := by
  induction ds with
  | nil => intro s ds' cs' h; simp [findDebtor] at h
  | cons d ds ih =>
    intro s ds' cs' h
    simp only [findDebtor] at h
    rcases hfc : findCreditor d cs with - | ⟨s₀, db₀, cs₀⟩
    · rw [hfc] at h
      simp only [Option.map_eq_some'] at h
      rcases h with ⟨⟨s₁, ds₁, cs₁⟩, hfd, heq⟩
      simp only [Prod.mk.injEq] at heq
      obtain ⟨h1, h2, h3⟩ := heq
      subst h1
      subst h2
      subst h3
      obtain ⟨ha, hb, ⟨d₀, hd₀, hx⟩, hc⟩ := ih hfd
      exact ⟨ha, hb, ⟨d₀, List.mem_cons_of_mem d hd₀, hx⟩, hc⟩
    · rw [hfc] at h
      simp only [Option.some.injEq, Prod.mk.injEq] at h
      obtain ⟨h1, h2, h3⟩ := h
      subst h1
      subst h2
      subst h3
      obtain ⟨c, hc, hid, ht, hs, hdb⟩ := findCreditor_some cs hfc
      subst hs
      refine ⟨hid, by simp [round2_idem], ⟨d, List.mem_cons_self d ds, rfl, rfl⟩,
        ⟨c, hc, rfl, rfl⟩⟩

theorem findDebtor_length (ds cs : List UserBalance) :
    ∀ {s : SettlementTransaction} {ds' cs' : List UserBalance},
      findDebtor ds cs = some (s, ds', cs') →
      ds'.length + cs'.length < ds.length + cs.length := by
  induction ds with
  | nil => intro s ds' cs' h; simp [findDebtor] at h
  | cons d ds ih =>
    intro s ds' cs' h
    simp only [findDebtor] at h
    rcases hfc : findCreditor d cs with - | ⟨s₀, db₀, cs₀⟩
    · rw [hfc] at h
      simp only [Option.map_eq_some'] at h
      rcases h with ⟨⟨s₁, ds₁, cs₁⟩, hfd, heq⟩
      simp only [Prod.mk.injEq] at heq
      obtain ⟨h1, h2, h3⟩ := heq
      subst h2
      subst h3
      have := ih hfd
      simp only [List.length_cons]
      omega
    · rw [hfc] at h
      simp only [Option.some.injEq, Prod.mk.injEq] at h
      obtain ⟨h1, h2, h3⟩ := h
      subst h2
      subst h3
      obtain ⟨hlen, hd⟩ := findCreditor_length cs hfc
      by_cases hdb : db₀ < eps
      · rw [if_pos hdb]
        simp only [List.length_cons]
        omega
      · rw [if_neg hdb]
        rcases hd with hd | hd
        · exact absurd hd hdb
        · simp only [List.length_cons]
          omega

theorem findDebtor_prov (ds cs : List UserBalance) :
    ∀ {s : SettlementTransaction} {ds' cs' : List UserBalance},
      findDebtor ds cs = some (s, ds', cs') →
      (∀ e ∈ ds', ∃ d₀ ∈ ds, e.userId = d₀.userId ∧ e.userEmail = d₀.userEmail) ∧
        (∀ e ∈ cs', ∃ c₀ ∈ cs, e.userId = c₀.userId ∧ e.userEmail = c₀.userEmail) := by
  induction ds with
  | nil => intro s ds' cs' h; simp [findDebtor] at h
  | cons d ds ih =>
    intro s ds' cs' h
    simp only [findDebtor] at h
    rcases hfc : findCreditor d cs with - | ⟨s₀, db₀, cs₀⟩
    · rw [hfc] at h
      simp only [Option.map_eq_some'] at h
      rcases h with ⟨⟨s₁, ds₁, cs₁⟩, hfd, heq⟩
      simp only [Prod.mk.injEq] at heq
      obtain ⟨h1, h2, h3⟩ := heq
      subst h2
      subst h3
      obtain ⟨hda, hca⟩ := ih hfd
      constructor
      · intro e he
        rcases List.mem_cons.mp he with rfl | he
        · exact ⟨e, List.mem_cons_self e ds, rfl, rfl⟩
        · obtain ⟨d₀, hd₀, hx⟩ := hda e he
          exact ⟨d₀, List.mem_cons_of_mem d hd₀, hx⟩
      · exact hca
    · rw [hfc] at h
      simp only [Option.some.injEq, Prod.mk.injEq] at h
      obtain ⟨h1, h2, h3⟩ := h
      subst h2
      subst h3
      constructor
      · intro e he
        by_cases hdb : db₀ < eps
        · rw [if_pos hdb] at he
          exact ⟨e, List.mem_cons_of_mem d he, rfl, rfl⟩
        · rw [if_neg hdb] at he
          rcases List.mem_cons.mp he with rfl | he
          · exact ⟨d, List.mem_cons_self d ds, rfl, rfl⟩
          · exact ⟨e, List.mem_cons_of_mem d he, rfl, rfl⟩
      · exact findCreditor_prov cs hfc

theorem findDebtor_bal (ds cs : List UserBalance) :
    ∀ {s : SettlementTransaction} {ds' cs' : List UserBalance},
      (∀ e ∈ ds, eps ≤ e.balance) →
      (∀ e ∈ cs, eps ≤ e.balance) →
      findDebtor ds cs = some (s, ds', cs') →
      (∀ e ∈ ds', eps ≤ e.balance) ∧ (∀ e ∈ cs', eps ≤ e.balance) := by
  induction ds with
  | nil => intro s ds' cs' hds hcs h; simp [findDebtor] at h
  | cons d ds ih =>
    intro s ds' cs' hds hcs h
    have hds₂ : ∀ x ∈ ds, eps ≤ x.balance :=
      fun x hx => hds x (List.mem_cons_of_mem d hx)
    simp only [findDebtor] at h
    rcases hfc : findCreditor d cs with - | ⟨s₀, db₀, cs₀⟩
    · rw [hfc] at h
      simp only [Option.map_eq_some'] at h
      rcases h with ⟨⟨s₁, ds₁, cs₁⟩, hfd, heq⟩
      simp only [Prod.mk.injEq] at heq
      obtain ⟨h1, h2, h3⟩ := heq
      subst h2
      subst h3
      obtain ⟨hda, hca⟩ := ih hds₂ hcs hfd
      constructor
      · intro e he
        rcases List.mem_cons.mp he with rfl | he
        · exact hds e (List.mem_cons_self e ds)
        · exact hda e he
      · exact hca
    · rw [hfc] at h
      simp only [Option.some.injEq, Prod.mk.injEq] at h
      obtain ⟨h1, h2, h3⟩ := h
      subst h2
      subst h3
      constructor
      · intro e he
        by_cases hdb : db₀ < eps
        · rw [if_pos hdb] at he
          exact hds₂ e he
        · rw [if_neg hdb] at he
          rcases List.mem_cons.mp he with rfl | he
          · exact not_lt.mp hdb
          · exact hds₂ e he
      · exact findCreditor_bal cs hcs hfc

theorem findDebtor_cents (ds cs : List UserBalance) :
    ∀ {s : SettlementTransaction} {ds' cs' : List UserBalance},
      (∀ e ∈ ds, isCents e.balance) →
      (∀ e ∈ cs, isCents e.balance) →
      findDebtor ds cs = some (s, ds', cs') →
      (∀ e ∈ ds', isCents e.balance) ∧ (∀ e ∈ cs', isCents e.balance) := by
  induction ds with
  | nil => intro s ds' cs' hds hcs h; simp [findDebtor] at h
  | cons d ds ih =>
    intro s ds' cs' hds hcs h
    have hds₂ : ∀ x ∈ ds, isCents x.balance :=
      fun x hx => hds x (List.mem_cons_of_mem d hx)
    simp only [findDebtor] at h
    rcases hfc : findCreditor d cs with - | ⟨s₀, db₀, cs₀⟩
    · rw [hfc] at h
      simp only [Option.map_eq_some'] at h
      rcases h with ⟨⟨s₁, ds₁, cs₁⟩, hfd, heq⟩
      simp only [Prod.mk.injEq] at heq
      obtain ⟨h1, h2, h3⟩ := heq
      subst h2
      subst h3
      obtain ⟨hda, hca⟩ := ih hds₂ hcs hfd
      constructor
      · intro e he
        rcases List.mem_cons.mp he with rfl | he
        · exact hds e (List.mem_cons_self e ds)
        · exact hda e he
      · exact hca
    · rw [hfc] at h
      simp only [Option.some.injEq, Prod.mk.injEq] at h
      obtain ⟨h1, h2, h3⟩ := h
      subst h2
      subst h3
      constructor
      · intro e he
        by_cases hdb : db₀ < eps
        · rw [if_pos hdb] at he
          exact hds₂ e he
        · rw [if_neg hdb] at he
          rcases List.mem_cons.mp he with rfl | he
          · exact (findCreditor_cents cs hcs hfc).1
          · exact hds₂ e he
      · exact (findCreditor_cents cs hcs hfc).2

theorem findDebtor_ledger (ds cs : List UserBalance) :
    ∀ {s : SettlementTransaction} {ds' cs' : List UserBalance},
      (∀ e ∈ ds, isCents e.balance) →
      (∀ e ∈ cs, isCents e.balance) →
      findDebtor ds cs = some (s, ds', cs') →
      eps ≤ s.amount ∧
        (∀ uid, keyBal ds' uid = keyBal ds uid - (if s.from_.id = uid then s.amount else 0)) ∧
        (∀ uid, keyBal cs' uid = keyBal cs uid - (if s.to_.id = uid then s.amount else 0)) ∧
        totalBal ds' = totalBal ds - s.amount ∧ totalBal cs' = totalBal cs - s.amount := by
  induction ds with
  | nil => intro s ds' cs' hds hcs h; simp [findDebtor] at h
  | cons d ds ih =>
    intro s ds' cs' hds hcs h
    have hdc : isCents d.balance := hds d (List.mem_cons_self d ds)
    have hds₂ : ∀ x ∈ ds, isCents x.balance :=
      fun x hx => hds x (List.mem_cons_of_mem d hx)
    simp only [findDebtor] at h
    rcases hfc : findCreditor d cs with - | ⟨s₀, db₀, cs₀⟩
    · rw [hfc] at h
      simp only [Option.map_eq_some'] at h
      rcases h with ⟨⟨s₁, ds₁, cs₁⟩, hfd, heq⟩
      simp only [Prod.mk.injEq] at heq
      obtain ⟨h1, h2, h3⟩ := heq
      subst h1
      subst h2
      subst h3
      obtain ⟨ha, hkeyd, hkeyc, htotd, htotc⟩ := ih hds₂ hcs hfd
      refine ⟨ha, ?_, hkeyc, ?_, htotc⟩
      · intro uid
        rw [keyBal_cons, keyBal_cons, hkeyd uid]
        ring
      · rw [totalBal_cons, totalBal_cons, htotd]
        ring
    · rw [hfc] at h
      simp only [Option.some.injEq, Prod.mk.injEq] at h
      obtain ⟨h1, h2, h3⟩ := h
      subst h1
      subst h2
      subst h3
      obtain ⟨ha, hle, hdb, hkeyc, htotc⟩ := findCreditor_ledger cs hdc hcs hfc
      have hfrom : s₀.from_.id = d.userId := by
        obtain ⟨c, hc, hid, ht, hs, -⟩ := findCreditor_some cs hfc
        rw [hs]
      refine ⟨ha, ?_, hkeyc, ?_, htotc⟩
      · intro uid
        have hcamt : isCents s₀.amount := by
          obtain ⟨c, hc, hid, ht, hs, -⟩ := findCreditor_some cs hfc
          rw [hs]
          exact isCents_round2 _
        by_cases hrm : db₀ < eps
        · have hz : db₀ = 0 := by
            have hcents : isCents db₀ := by
              rw [hdb]
              exact hdc.sub hcamt
            apply isCents_eq_zero_of_abs_lt hcents
            rw [abs_of_nonneg (by rw [hdb]; linarith)]
            exact hrm
          have hbal : d.balance = s₀.amount := by
            rw [hdb] at hz
            linarith
          rw [if_pos hrm, keyBal_cons, hfrom, hbal]
          rcases eq_or_ne d.userId uid with hu | hu
          · simp only [hu, eq_self_iff_true, if_true]
            ring
          · simp only [if_neg hu]
            ring
        · rw [if_neg hrm, keyBal_cons, keyBal_cons, hfrom, hdb]
          rcases eq_or_ne d.userId uid with hu | hu
          · simp only [hu, eq_self_iff_true, if_true]
            ring
          · simp only [if_neg hu]
            ring
      · have hcamt : isCents s₀.amount := by
          obtain ⟨c, hc, hid, ht, hs, -⟩ := findCreditor_some cs hfc
          rw [hs]
          exact isCents_round2 _
        by_cases hrm : db₀ < eps
        · have hz : db₀ = 0 := by
            have hcents : isCents db₀ := by
              rw [hdb]
              exact hdc.sub hcamt
            apply isCents_eq_zero_of_abs_lt hcents
            rw [abs_of_nonneg (by rw [hdb]; linarith)]
            exact hrm
          have hbal : d.balance = s₀.amount := by
            rw [hdb] at hz
            linarith
          rw [if_pos hrm, totalBal_cons, hbal]
          ring
        · rw [if_neg hrm, totalBal_cons, totalBal_cons, hdb]
          ring

/-! ### Properties of the matching loop -/

theorem findCreditor_isSome {d c : UserBalance} (cs : List UserBalance)
    (hid : d.userId ≠ c.userId) (hd : eps ≤ d.balance) (hc : eps ≤ c.balance) :
    ∃ r, findCreditor d (c :: cs) = some r := by
  simp only [findCreditor]
  rw [if_neg hid]
  rw [if_pos (le_min hd hc)]
  exact ⟨_, rfl⟩

theorem findDebtor_isSome {d c : UserBalance} (ds cs : List UserBalance)
    (hid : d.userId ≠ c.userId) (hd : eps ≤ d.balance) (hc : eps ≤ c.balance) :
    ∃ r, findDebtor (d :: ds) (c :: cs) = some r := by
  obtain ⟨⟨s, db, cs'⟩, hfc⟩ := findCreditor_isSome cs hid hd hc
  refine ⟨(s, if db < eps then ds else { d with balance := db } :: ds, cs'), ?_⟩
  simp only [findDebtor]
  rw [hfc]

theorem planLoop_zero (d c : List UserBalance) : planLoop 0 d c = ([], d, c) := rfl

theorem planLoop_succ_empty {d c : List UserBalance} (fuel : Nat)
    (hemp : (d.isEmpty || c.isEmpty) = true) :
    planLoop (fuel + 1) d c = ([], d, c) := by
  simp only [planLoop]
  rw [if_pos hemp]

theorem planLoop_succ_none {d c : List UserBalance} (fuel : Nat)
    (hemp : ¬(d.isEmpty || c.isEmpty) = true)
    (hfd : findDebtor (sortDesc d) (sortDesc c) = none) :
    planLoop (fuel + 1) d c = ([], sortDesc d, sortDesc c) := by
  simp only [planLoop]
  rw [if_neg hemp, hfd]

theorem planLoop_succ_some {d c ds' cs' : List UserBalance}
    {s : SettlementTransaction} (fuel : Nat)
    (hemp : ¬(d.isEmpty || c.isEmpty) = true)
    (hfd : findDebtor (sortDesc d) (sortDesc c) = some (s, ds', cs')) :
    planLoop (fuel + 1) d c =
      (s :: (planLoop fuel ds' cs').1,
        (planLoop fuel ds' cs').2.1, (planLoop fuel ds' cs').2.2) := by
  simp only [planLoop]
  rw [if_neg hemp, hfd]

theorem planLoop_length (fuel : Nat) :
    ∀ d c : List UserBalance,
      (planLoop fuel d c).1.length ≤ d.length + c.length - 1 := by
  induction fuel with
  | zero => intro d c; simp [planLoop]
  | succ fuel ih =>
    intro d c
    simp only [planLoop]
    by_cases hemp : (d.isEmpty || c.isEmpty) = true
    · rw [if_pos hemp]
      simp
    · rw [if_neg hemp]
      have hde : d ≠ [] := by
        intro hd
        apply hemp
        simp [hd]
      have hce : c ≠ [] := by
        intro hc
        apply hemp
        simp [hc]
      have hdl : 1 ≤ d.length := List.length_pos.mpr hde
      have hcl : 1 ≤ c.length := List.length_pos.mpr hce
      rcases hfd : findDebtor (sortDesc d) (sortDesc c) with - | ⟨s, ds', cs'⟩
      · simp
      · have h1 := findDebtor_length (sortDesc d) (sortDesc c) hfd
        rw [sortDesc_length, sortDesc_length] at h1
        have h2 := ih ds' cs'
        simp only [List.length_cons]
        omega

theorem planLoop_fuel_succ (fuel : Nat) :
    ∀ d c : List UserBalance, d.length + c.length ≤ fuel →
      planLoop (fuel + 1) d c = planLoop fuel d c := by
  induction fuel with
  | zero =>
    intro d c hsum
    have hd : d = [] := List.length_eq_zero.mp (by omega)
    have hc : c = [] := List.length_eq_zero.mp (by omega)
    subst hd
    subst hc
    simp [planLoop]
  | succ fuel ih =>
    intro d c hsum
    by_cases hemp : (d.isEmpty || c.isEmpty) = true
    · rw [planLoop_succ_empty (fuel + 1) hemp, planLoop_succ_empty fuel hemp]
    · rcases hfd : findDebtor (sortDesc d) (sortDesc c) with - | ⟨s, ds', cs'⟩
      · rw [planLoop_succ_none (fuel + 1) hemp hfd, planLoop_succ_none fuel hemp hfd]
      · rw [planLoop_succ_some (fuel + 1) hemp hfd, planLoop_succ_some fuel hemp hfd]
        have h1 := findDebtor_length (sortDesc d) (sortDesc c) hfd
        rw [sortDesc_length, sortDesc_length] at h1
        rw [ih ds' cs' (by omega)]

theorem planLoop_fuel_ge (extra : Nat) :
    ∀ (fuel : Nat) (d c : List UserBalance), d.length + c.length ≤ fuel →
      planLoop (fuel + extra) d c = planLoop fuel d c := by
  induction extra with
  | zero => intro fuel d c hsum; rfl
  | succ extra ih =>
    intro fuel d c hsum
    have h1 : fuel + (extra + 1) = (fuel + extra) + 1 := by omega
    rw [h1, planLoop_fuel_succ (fuel + extra) d c (by omega), ih fuel d c hsum]

theorem planLoop_emit (fuel : Nat) :
    ∀ d c : List UserBalance, ∀ s ∈ (planLoop fuel d c).1,
      s.from_.id ≠ s.to_.id ∧ s.amount = round2 s.amount ∧
        (∃ e ∈ d, s.from_.id = e.userId ∧ s.from_.email = e.userEmail) ∧
        (∃ e ∈ c, s.to_.id = e.userId ∧ s.to_.email = e.userEmail) := by
  induction fuel with
  | zero => intro d c s hs; simp [planLoop] at hs
  | succ fuel ih =>
    intro d c s hs
    simp only [planLoop] at hs
    by_cases hemp : (d.isEmpty || c.isEmpty) = true
    · rw [if_pos hemp] at hs
      simp at hs
    · rw [if_neg hemp] at hs
      rcases hfd : findDebtor (sortDesc d) (sortDesc c) with - | ⟨s₀, ds', cs'⟩
      · rw [hfd] at hs
        simp at hs
      · rw [hfd] at hs
        simp only [List.mem_cons] at hs
        rcases hs with rfl | hs
        · obtain ⟨ha, hb, ⟨d₀, hd₀, hx1, hx2⟩, ⟨c₀, hc₀, hy1, hy2⟩⟩ :=
            findDebtor_emit (sortDesc d) (sortDesc c) hfd
          exact ⟨ha, hb, ⟨d₀, (sortDesc_mem d d₀).mp hd₀, hx1, hx2⟩,
            ⟨c₀, (sortDesc_mem c c₀).mp hc₀, hy1, hy2⟩⟩
        · obtain ⟨ha, hb, ⟨d₀, hd₀, hx1, hx2⟩, ⟨c₀, hc₀, hy1, hy2⟩⟩ := ih ds' cs' s hs
          obtain ⟨hprovd, hprovc⟩ := findDebtor_prov (sortDesc d) (sortDesc c) hfd
          obtain ⟨d₁, hd₁, hz1, hz2⟩ := hprovd d₀ hd₀
          obtain ⟨c₁, hc₁, hw1, hw2⟩ := hprovc c₀ hc₀
          exact ⟨ha, hb,
            ⟨d₁, (sortDesc_mem d d₁).mp hd₁, hx1.trans hz1, hx2.trans hz2⟩,
            ⟨c₁, (sortDesc_mem c c₁).mp hc₁, hy1.trans hw1, hy2.trans hw2⟩⟩

theorem planLoop_master (fuel : Nat) :
    ∀ d c : List UserBalance,
      d.length + c.length ≤ fuel →
      (∀ e ∈ d, eps ≤ e.balance) → (∀ e ∈ c, eps ≤ e.balance) →
      (∀ e ∈ d, isCents e.balance) → (∀ e ∈ c, isCents e.balance) →
      (∀ e ∈ d, ∀ x ∈ c, e.userId ≠ x.userId) →
      ((planLoop fuel d c).2.1 = [] ∨ (planLoop fuel d c).2.2 = []) ∧
        (∀ uid, signedSum (planLoop fuel d c).1 uid =
          (keyBal c uid - keyBal d uid) -
            (keyBal (planLoop fuel d c).2.2 uid - keyBal (planLoop fuel d c).2.1 uid)) ∧
        (totalBal d - totalBal (planLoop fuel d c).2.1 =
          totalBal c - totalBal (planLoop fuel d c).2.2) ∧
        (∀ e ∈ (planLoop fuel d c).2.1, 0 ≤ e.balance) ∧
        (∀ e ∈ (planLoop fuel d c).2.2, 0 ≤ e.balance) := by
  induction fuel with
  | zero =>
    intro d c hsum hbd hbc hcd hcc hdisj
    have hd : d = [] := List.length_eq_zero.mp (by omega)
    have hc : c = [] := List.length_eq_zero.mp (by omega)
    subst hd
    subst hc
    rw [planLoop_zero]
    refine ⟨Or.inl rfl, ?_, by simp, ?_, ?_⟩
    · intro uid
      simp [signedSum_nil, keyBal_nil]
    · intro e he
      simp at he
    · intro e he
      simp at he
  | succ fuel ih =>
    intro d c hsum hbd hbc hcd hcc hdisj
    by_cases hemp : (d.isEmpty || c.isEmpty) = true
    · rw [planLoop_succ_empty fuel hemp]
      refine ⟨?_, ?_, by ring, ?_, ?_⟩
      · simp only [Bool.or_eq_true, List.isEmpty_iff] at hemp
        exact hemp
      · intro uid
        rw [signedSum_nil]
        ring
      · intro e he
        exact le_trans (le_of_lt eps_pos) (hbd e he)
      · intro e he
        exact le_trans (le_of_lt eps_pos) (hbc e he)
    · have hde : d ≠ [] := by
        intro hd
        exact hemp (by simp [hd])
      have hce : c ≠ [] := by
        intro hc
        exact hemp (by simp [hc])
      rcases hfd : findDebtor (sortDesc d) (sortDesc c) with - | ⟨s₀, ds', cs'⟩
      · exfalso
        rcases hsd : sortDesc d with - | ⟨d₁, dtl⟩
        · have := sortDesc_length d
          rw [hsd] at this
          exact hde (List.length_eq_zero.mp this.symm)
        · rcases hsc : sortDesc c with - | ⟨c₁, ctl⟩
          · have := sortDesc_length c
            rw [hsc] at this
            exact hce (List.length_eq_zero.mp this.symm)
          · have hd₁ : d₁ ∈ d := (sortDesc_mem d d₁).mp (by rw [hsd]; exact List.mem_cons_self _ _)
            have hc₁ : c₁ ∈ c := (sortDesc_mem c c₁).mp (by rw [hsc]; exact List.mem_cons_self _ _)
            obtain ⟨r, hr⟩ := findDebtor_isSome dtl ctl (hdisj d₁ hd₁ c₁ hc₁)
              (hbd d₁ hd₁) (hbc c₁ hc₁)
            rw [hsd, hsc, hr] at hfd
            simp at hfd
      · rw [planLoop_succ_some fuel hemp hfd]
        dsimp only
        have hbd' : ∀ e ∈ sortDesc d, eps ≤ e.balance :=
          fun e he => hbd e ((sortDesc_mem d e).mp he)
        have hbc' : ∀ e ∈ sortDesc c, eps ≤ e.balance :=
          fun e he => hbc e ((sortDesc_mem c e).mp he)
        have hcd' : ∀ e ∈ sortDesc d, isCents e.balance :=
          fun e he => hcd e ((sortDesc_mem d e).mp he)
        have hcc' : ∀ e ∈ sortDesc c, isCents e.balance :=
          fun e he => hcc e ((sortDesc_mem c e).mp he)
        have hlen := findDebtor_length (sortDesc d) (sortDesc c) hfd
        rw [sortDesc_length, sortDesc_length] at hlen
        have hbal2 := findDebtor_bal (sortDesc d) (sortDesc c) hbd' hbc' hfd
        have hcents2 := findDebtor_cents (sortDesc d) (sortDesc c) hcd' hcc' hfd
        have hprov := findDebtor_prov (sortDesc d) (sortDesc c) hfd
        have hdisj2 : ∀ e ∈ ds', ∀ x ∈ cs', e.userId ≠ x.userId := by
          intro e he x hx
          obtain ⟨d₀, hd₀, he1, -⟩ := hprov.1 e he
          obtain ⟨c₀, hc₀, hx1, -⟩ := hprov.2 x hx
          rw [he1, hx1]
          exact hdisj d₀ ((sortDesc_mem d d₀).mp hd₀) c₀ ((sortDesc_mem c c₀).mp hc₀)
        obtain ⟨hamt, hkeyd, hkeyc, htotd, htotc⟩ :=
          findDebtor_ledger (sortDesc d) (sortDesc c) hcd' hcc' hfd
        obtain ⟨ihempty, ihled, ihtot, ihbd, ihbc⟩ :=
          ih ds' cs' (by omega) hbal2.1 hbal2.2 hcents2.1 hcents2.2 hdisj2
        refine ⟨ihempty, ?_, ?_, ihbd, ihbc⟩
        · intro uid
          rw [signedSum_cons, ihled uid]
          have h1 := hkeyd uid
          rw [sortDesc_keyBal] at h1
          have h2 := hkeyc uid
          rw [sortDesc_keyBal] at h2
          rw [h1, h2]
          ring
        · rw [sortDesc_totalBal] at htotd htotc
          linarith [ihtot]

theorem planLoop_amounts (fuel : Nat) :
    ∀ d c : List UserBalance,
      (∀ e ∈ d, isCents e.balance) → (∀ e ∈ c, isCents e.balance) →
      ∀ s ∈ (planLoop fuel d c).1, eps ≤ s.amount := by
  induction fuel with
  | zero => intro d c hcd hcc s hs; simp [planLoop_zero] at hs
  | succ fuel ih =>
    intro d c hcd hcc s hs
    by_cases hemp : (d.isEmpty || c.isEmpty) = true
    · rw [planLoop_succ_empty fuel hemp] at hs
      simp at hs
    · rcases hfd : findDebtor (sortDesc d) (sortDesc c) with - | ⟨s₀, ds', cs'⟩
      · rw [planLoop_succ_none fuel hemp hfd] at hs
        simp at hs
      · rw [planLoop_succ_some fuel hemp hfd] at hs
        have hcd' : ∀ e ∈ sortDesc d, isCents e.balance :=
          fun e he => hcd e ((sortDesc_mem d e).mp he)
        have hcc' : ∀ e ∈ sortDesc c, isCents e.balance :=
          fun e he => hcc e ((sortDesc_mem c e).mp he)
        have hcents2 := findDebtor_cents (sortDesc d) (sortDesc c) hcd' hcc' hfd
        obtain ⟨hamt, -, -, -, -⟩ :=
          findDebtor_ledger (sortDesc d) (sortDesc c) hcd' hcc' hfd
        rcases List.mem_cons.mp hs with rfl | hs
        · exact hamt
        · exact ih ds' cs' hcents2.1 hcents2.2 s hs

/-! ### Uniqueness of user ids in the balance map -/

theorem hasKey_eq_false_iff (m : List UserBalance) (k : String) :
    hasKey m k = false ↔ ∀ e ∈ m, e.userId ≠ k := by
  simp [hasKey, List.any_eq_false]

theorem setIfAbsent_pairwise {m : List UserBalance} {k e : String}
    (h : m.Pairwise fun a b => a.userId ≠ b.userId) :
    (setIfAbsent m k e).Pairwise fun a b => a.userId ≠ b.userId := by
  unfold setIfAbsent
  by_cases hk : hasKey m k = true
  · rw [if_pos hk]
    exact h
  · rw [if_neg hk]
    rw [List.pairwise_append]
    refine ⟨h, by simp, ?_⟩
    intro a ha b hb
    simp only [List.mem_singleton] at hb
    subst hb
    have hk' : hasKey m k = false := by
      simpa using hk
    exact (hasKey_eq_false_iff m k).mp hk' a ha

theorem updateBal_pairwise {m : List UserBalance} {k : String} {f : ℚ → ℚ}
    (h : m.Pairwise fun a b => a.userId ≠ b.userId) :
    (updateBal m k f).Pairwise fun a b => a.userId ≠ b.userId := by
  unfold updateBal
  refine List.Pairwise.map _ ?_ h
  intro a b hab
  have ha : (if a.userId = k then { a with balance := f a.balance } else a).userId = a.userId := by
    split <;> rfl
  have hb : (if b.userId = k then { b with balance := f b.balance } else b).userId = b.userId := by
    split <;> rfl
  rw [ha, hb]
  exact hab

theorem applyRequest_pairwise {m : List UserBalance} {r : Request}
    (h : m.Pairwise fun a b => a.userId ≠ b.userId) :
    (applyRequest m r).Pairwise fun a b => a.userId ≠ b.userId := by
  unfold applyRequest
  split
  · split
    · exact h
    · split
      · exact h
      · split
        · exact updateBal_pairwise (updateBal_pairwise h)
        · exact h
  · exact h

theorem initBalances_pairwise (rs : List Request) :
    (initBalances rs).Pairwise fun a b => a.userId ≠ b.userId := by
  unfold initBalances
  suffices h : ∀ acc : List UserBalance, (acc.Pairwise fun a b => a.userId ≠ b.userId) →
      ((rs.foldl (fun m r =>
        if r.status = RStatus.pending then
          setIfAbsent (setIfAbsent m r.created_by (jsOr r.created_by_email r.created_by))
            r.request_to.id (jsOr r.request_to.email r.request_to.id)
        else m) acc).Pairwise fun a b => a.userId ≠ b.userId) by
    exact h [] (by simp)
  induction rs with
  | nil => intro acc hacc; exact hacc
  | cons r rs ih =>
    intro acc hacc
    simp only [List.foldl_cons]
    apply ih
    split
    · exact setIfAbsent_pairwise (setIfAbsent_pairwise hacc)
    · exact hacc

theorem rawNetBalances_pairwise (rs : List Request) :
    (rawNetBalances rs).Pairwise fun a b => a.userId ≠ b.userId := by
  unfold rawNetBalances
  apply List.Pairwise.sublist (List.filter_sublist _)
  have hfold : (rs.foldl applyRequest (initBalances rs)).Pairwise
      fun a b => a.userId ≠ b.userId := by
    suffices h : ∀ m : List UserBalance, (m.Pairwise fun a b => a.userId ≠ b.userId) →
        ((rs.foldl applyRequest m).Pairwise fun a b => a.userId ≠ b.userId) by
      exact h _ (initBalances_pairwise rs)
    induction rs with
    | nil => intro m hm; exact hm
    | cons r rs ih =>
      intro m hm
      simp only [List.foldl_cons]
      exact ih _ (applyRequest_pairwise hm)
  exact hfold.map _ fun a b hab => hab

theorem keyBal_zero_of_forall (l : List UserBalance) (uid : String)
    (h : ∀ e ∈ l, e.userId ≠ uid) : keyBal l uid = 0 := by
  induction l with
  | nil => exact keyBal_nil uid
  | cons e l ih =>
    rw [keyBal_cons, if_neg (h e (List.mem_cons_self e l))]
    rw [ih fun x hx => h x (List.mem_cons_of_mem e hx)]
    ring

theorem keyBal_of_pairwise (l : List UserBalance)
    (hp : l.Pairwise fun a b => a.userId ≠ b.userId) {u : UserBalance} (hu : u ∈ l) :
    keyBal l u.userId = u.balance := by
  induction l with
  | nil => simp at hu
  | cons e l ih =>
    rw [List.pairwise_cons] at hp
    rcases List.mem_cons.mp hu with rfl | hu
    · rw [keyBal_cons, if_pos rfl]
      rw [keyBal_zero_of_forall l u.userId fun x hx => (hp.1 x hx).symm]
      ring
    · rw [keyBal_cons, if_neg (hp.1 u hu)]
      rw [ih hp.2 hu]
      ring

/-! ### Splitting the balance set into the initial debtor and creditor arrays -/

theorem debtorsInit_mem {l : List UserBalance} {e : UserBalance}
    (he : e ∈ debtorsInit l) :
    ∃ b ∈ l, b.balance < 0 ∧ e.userId = b.userId ∧ e.userEmail = b.userEmail ∧
      e.balance = |b.balance| := by
  unfold debtorsInit at he
  rcases List.mem_map.mp he with ⟨b, hb, rfl⟩
  have hb2 := List.of_mem_filter hb
  have hb3 : b.balance < 0 := by simpa using hb2
  exact ⟨b, List.mem_of_mem_filter hb, hb3, rfl, rfl, rfl⟩

theorem creditorsInit_mem {l : List UserBalance} {e : UserBalance}
    (he : e ∈ creditorsInit l) : e ∈ l ∧ 0 < e.balance := by
  unfold creditorsInit at he
  have h1 := List.of_mem_filter he
  exact ⟨List.mem_of_mem_filter he, by simpa using h1⟩

theorem keyBal_init_split (l : List UserBalance) (h : ∀ e ∈ l, e.balance ≠ 0)
    (uid : String) :
    keyBal (creditorsInit l) uid - keyBal (debtorsInit l) uid = keyBal l uid := by
  induction l with
  | nil => simp [creditorsInit, debtorsInit, keyBal_nil]
  | cons e l ih =>
    have he := h e (List.mem_cons_self e l)
    have ih := ih fun x hx => h x (List.mem_cons_of_mem e hx)
    rcases lt_or_gt_of_ne he with hneg | hpos
    · have h1 : (decide (0 < e.balance)) = false := by
        simp [not_lt.mpr (le_of_lt hneg)]
      have h2 : (decide (e.balance < 0)) = true := by simp [hneg]
      simp only [creditorsInit, debtorsInit, List.filter_cons, h1, h2, if_true,
        if_false, Bool.false_eq_true, List.map_cons] at ih ⊢
      rw [keyBal_cons, keyBal_cons]
      have habs : |e.balance| = -e.balance := abs_of_neg hneg
      rcases eq_or_ne e.userId uid with hu | hu
      · simp only [hu, eq_self_iff_true, if_true] at ih ⊢
        rw [habs]
        rw [← ih]
        ring
      · simp only [if_neg hu] at ih ⊢
        rw [← ih]
        ring
    · have h1 : (decide (0 < e.balance)) = true := by simp [hpos]
      have h2 : (decide (e.balance < 0)) = false := by
        simp [not_lt.mpr (le_of_lt hpos)]
      simp only [creditorsInit, debtorsInit, List.filter_cons, h1, h2, if_true,
        if_false, Bool.false_eq_true, List.map_cons] at ih ⊢
      rw [keyBal_cons, keyBal_cons]
      rcases eq_or_ne e.userId uid with hu | hu
      · simp only [hu, eq_self_iff_true, if_true] at ih ⊢
        rw [← ih]
        ring
      · simp only [if_neg hu] at ih ⊢
        rw [← ih]
        ring

theorem totalBal_init_split (l : List UserBalance) (h : ∀ e ∈ l, e.balance ≠ 0) :
    totalBal (creditorsInit l) - totalBal (debtorsInit l) = totalBal l := by
  induction l with
  | nil => simp [creditorsInit, debtorsInit, totalBal_nil]
  | cons e l ih =>
    have he := h e (List.mem_cons_self e l)
    have ih := ih fun x hx => h x (List.mem_cons_of_mem e hx)
    rcases lt_or_gt_of_ne he with hneg | hpos
    · have h1 : (decide (0 < e.balance)) = false := by
        simp [not_lt.mpr (le_of_lt hneg)]
      have h2 : (decide (e.balance < 0)) = true := by simp [hneg]
      simp only [creditorsInit, debtorsInit, List.filter_cons, h1, h2, if_true,
        if_false, Bool.false_eq_true, List.map_cons] at ih ⊢
      rw [totalBal_cons, totalBal_cons]
      have habs : |e.balance| = -e.balance := abs_of_neg hneg
      rw [habs, ← ih]
      ring
    · have h1 : (decide (0 < e.balance)) = true := by simp [hpos]
      have h2 : (decide (e.balance < 0)) = false := by
        simp [not_lt.mpr (le_of_lt hpos)]
      simp only [creditorsInit, debtorsInit, List.filter_cons, h1, h2, if_true,
        if_false, Bool.false_eq_true, List.map_cons] at ih ⊢
      rw [totalBal_cons, totalBal_cons, ← ih]
      ring

/-! ### Facts about the aggregated balance set and the pipeline plumbing -/

theorem rawNetBalances_eps (rs : List Request) :
    ∀ e ∈ rawNetBalances rs, eps ≤ |e.balance| := by
  intro e he
  have h1 := List.of_mem_filter he
  simpa using h1

theorem rawNetBalances_cents (rs : List Request) :
    ∀ e ∈ rawNetBalances rs, isCents e.balance := by
  intro e he
  have h1 := List.mem_of_mem_filter he
  rcases List.mem_map.mp h1 with ⟨b, hb, rfl⟩
  exact isCents_round2 _

theorem getOptimizedSettlements_def (rs : List Request) :
    getOptimizedSettlements rs =
      if (planFromBalances (calculateNetBalances rs)).isEmpty = true
      then (planFromBalances (calculateNetBalances rs), pendingWrites rs)
      else (planFromBalances (calculateNetBalances rs), []) :=
  rfl

theorem getOptimizedSettlements_fst (rs : List Request) :
    (getOptimizedSettlements rs).1 = planFromBalances (calculateNetBalances rs) := by
  rw [getOptimizedSettlements_def]
  split <;> rfl

theorem planFromBalances_of_ne {balances : List UserBalance} (h : balances ≠ []) :
    planFromBalances balances =
      (rawSettlements balances).filter fun s =>
        s.from_.email ≠ s.to_.email ∧ eps ≤ s.amount := by
  unfold planFromBalances
  rw [if_neg (by simpa [List.isEmpty_iff] using h)]

theorem filters_disjoint_length (l : List UserBalance) :
    ((l.filter fun b => b.balance < 0).length +
      (l.filter fun b => 0 < b.balance).length) ≤ l.length := by
  induction l with
  | nil => simp
  | cons e l ih =>
    rcases lt_trichotomy e.balance 0 with hneg | hz | hpos
    · have h1 : (decide (e.balance < 0)) = true := by simp [hneg]
      have h2 : (decide (0 < e.balance)) = false := by
        simp [not_lt.mpr (le_of_lt hneg)]
      simp only [List.filter_cons, h1, h2, if_true, if_false, Bool.false_eq_true,
        List.length_cons]
      omega
    · have h1 : (decide (e.balance < 0)) = false := by simp [hz]
      have h2 : (decide (0 < e.balance)) = false := by simp [hz]
      simp only [List.filter_cons, h1, h2, if_true, if_false, Bool.false_eq_true,
        List.length_cons]
      omega
    · have h1 : (decide (e.balance < 0)) = false := by
        simp [not_lt.mpr (le_of_lt hpos)]
      have h2 : (decide (0 < e.balance)) = true := by simp [hpos]
      simp only [List.filter_cons, h1, h2, if_true, if_false, Bool.false_eq_true,
        List.length_cons]
      omega

/-- C2: every settlement returned by `getOptimizedSettlements` joins two
distinct participants — distinct ids and distinct email labels — and carries
an amount that is at least epsilon (0.01) and is a fixed point of the
2-decimal rounding. -/
theorem settlements_valid (rs : List Request) :
    ∀ s ∈ (getOptimizedSettlements rs).1,
      s.from_.id ≠ s.to_.id ∧ s.from_.email ≠ s.to_.email ∧
        eps ≤ s.amount ∧ s.amount = round2 s.amount := by
  intro s hs
  rw [getOptimizedSettlements_fst] at hs
  by_cases hB : calculateNetBalances rs = []
  · rw [hB] at hs
    simp [planFromBalances, rawSettlements] at hs
  · rw [planFromBalances_of_ne hB] at hs
    have hmem := List.mem_of_mem_filter hs
    have hpred := List.of_mem_filter hs
    simp only [decide_eq_true_eq] at hpred
    obtain ⟨ha, hb, -, -⟩ := planLoop_emit _ _ _ s hmem
    exact ⟨ha, hpred.1, hpred.2, hb⟩

/-- Witness input for several claims: B requested 30 from A, so A owes B 30
and the plan is a single payment from A to B. -/
def basicRequest : Request :=
  ⟨"r1", 30, "B", "b@x", ⟨"A", "a@x"⟩, RStatus.pending⟩

/-- Witness for C2: on the single 30-unit request the returned plan is exactly
one settlement, from A to B, and it satisfies all four properties. -/
theorem settlements_valid_witness :
    (⟨⟨"A", "a@x"⟩, ⟨"B", "b@x"⟩, 30⟩ : SettlementTransaction) ∈
        (getOptimizedSettlements [basicRequest]).1 ∧
      (⟨⟨"A", "a@x"⟩, ⟨"B", "b@x"⟩, (30 : ℚ)⟩ : SettlementTransaction).from_.id ≠ "B" :=
  ⟨by decide, (settlements_valid [basicRequest] _ (by decide)).1⟩

/-- C4: the planner terminates and emits at most N − 1 settlements for N
participants carrying a nonzero net balance: the returned plan is shorter than
the balance set, and giving the matching loop any fuel beyond
`debtors.length + creditors.length` iterations changes nothing (each
iteration removes at least one participant from play). -/
theorem planner_termination_bound (rs : List Request) :
    ((getOptimizedSettlements rs).1).length ≤ (calculateNetBalances rs).length - 1 ∧
      ∀ extra : Nat,
        planLoop ((debtorsInit (calculateNetBalances rs)).length +
            (creditorsInit (calculateNetBalances rs)).length + extra)
          (debtorsInit (calculateNetBalances rs))
          (creditorsInit (calculateNetBalances rs)) =
        planLoop ((debtorsInit (calculateNetBalances rs)).length +
            (creditorsInit (calculateNetBalances rs)).length)
          (debtorsInit (calculateNetBalances rs))
          (creditorsInit (calculateNetBalances rs)) := by
  constructor
  · rw [getOptimizedSettlements_fst]
    by_cases hB : calculateNetBalances rs = []
    · rw [hB]
      simp [planFromBalances, rawSettlements]
    · rw [planFromBalances_of_ne hB]
      have h1 : ((rawSettlements (calculateNetBalances rs)).filter fun s =>
          s.from_.email ≠ s.to_.email ∧ eps ≤ s.amount).length ≤
            (rawSettlements (calculateNetBalances rs)).length :=
        List.length_filter_le _ _
      have h2 : (rawSettlements (calculateNetBalances rs)).length ≤
          (debtorsInit (calculateNetBalances rs)).length +
            (creditorsInit (calculateNetBalances rs)).length - 1 :=
        planLoop_length _ _ _
      have h3 : (debtorsInit (calculateNetBalances rs)).length +
          (creditorsInit (calculateNetBalances rs)).length ≤
            (calculateNetBalances rs).length := by
        have h4 := filters_disjoint_length (calculateNetBalances rs)
        have h5 : (debtorsInit (calculateNetBalances rs)).length =
            ((calculateNetBalances rs).filter fun b => b.balance < 0).length := by
          unfold debtorsInit
          rw [List.length_map]
        have h6 : (creditorsInit (calculateNetBalances rs)).length =
            ((calculateNetBalances rs).filter fun b => 0 < b.balance).length := rfl
        omega
      omega
  · intro extra
    exact planLoop_fuel_ge extra _ _ _ (le_refl _)

/-- A money request between two distinct user ids that share one email
label; the planner computes the settlement but the final email-based filter
silently drops it. -/
def sharedEmailRequest : Request :=
  ⟨"r1", 30, "u1", "x@x", ⟨"u2", "x@x"⟩, RStatus.pending⟩

/-- A conservative balance set in which the two participant ids carry the
same email label. -/
def sharedEmailBalances : List UserBalance :=
  [⟨"u1", "x@x", 30⟩, ⟨"u2", "x@x", -30⟩]

/-- Counterexample for C3 as stated: `sharedEmailBalances` satisfies the
conservation precondition, yet participant u1 (net +30) receives nothing in
the planner output — the matching loop pairs u2 with u1, but the final
filter compares emails and removes the settlement, so the signed sum misses
the net balance by 30.  The same failure reaches the public pipeline via
`sharedEmailRequest`. -/
theorem plan_soundness_counterexample :
    |totalBal sharedEmailBalances| ≤ eps ∧
      ¬|signedSum (planFromBalances sharedEmailBalances) "u1" - 30| ≤ eps ∧
      calculateNetBalances [sharedEmailRequest] = sharedEmailBalances ∧
      (getOptimizedSettlements [sharedEmailRequest]).1 = [] := by
  refine ⟨by decide, by decide, by decide, by decide⟩

/-- C3 (amended): provided no two distinct participants of the computed
balance set share an email label, the signed settlement total of every participant
(positive when receiving, negative when paying) reproduces their net balance
within epsilon.  The conservation precondition of the claim holds
automatically: `calculateNetBalances` fails closed otherwise. -/
theorem plan_soundness (rs : List Request)
    (hmail : ∀ a ∈ calculateNetBalances rs, ∀ b ∈ calculateNetBalances rs,
      a.userId ≠ b.userId → a.userEmail ≠ b.userEmail) :
    ∀ u ∈ calculateNetBalances rs,
      |signedSum ((getOptimizedSettlements rs).1) u.userId - u.balance| ≤ eps := by
  intro u hu
  have hne : ∀ e ∈ calculateNetBalances rs, e.balance ≠ 0 := by
    rcases calculateNetBalances_cases rs with hz | hraw
    · rw [hz]; intro e he; simp at he
    · rw [hraw]; exact rawNetBalances_balance_ne_zero rs
  have heps : ∀ e ∈ calculateNetBalances rs, eps ≤ |e.balance| := by
    rcases calculateNetBalances_cases rs with hz | hraw
    · rw [hz]; intro e he; simp at he
    · rw [hraw]; exact rawNetBalances_eps rs
  have hcents : ∀ e ∈ calculateNetBalances rs, isCents e.balance := by
    rcases calculateNetBalances_cases rs with hz | hraw
    · rw [hz]; intro e he; simp at he
    · rw [hraw]; exact rawNetBalances_cents rs
  have hpair : (calculateNetBalances rs).Pairwise fun a b => a.userId ≠ b.userId := by
    rcases calculateNetBalances_cases rs with hz | hraw
    · rw [hz]; simp
    · rw [hraw]; exact rawNetBalances_pairwise rs
  have hcons : |totalBal (calculateNetBalances rs)| ≤ eps := conservation_helper rs
  have hBne : calculateNetBalances rs ≠ [] := by
    intro h
    rw [h] at hu
    simp at hu
  -- invariants of the initial debtor and creditor arrays
  have hd_eps : ∀ e ∈ debtorsInit (calculateNetBalances rs), eps ≤ e.balance := by
    intro e he
    obtain ⟨b, hb, hbneg, -, -, hbal⟩ := debtorsInit_mem he
    rw [hbal]
    exact heps b hb
  have hc_eps : ∀ e ∈ creditorsInit (calculateNetBalances rs), eps ≤ e.balance := by
    intro e he
    obtain ⟨hb, hpos⟩ := creditorsInit_mem he
    have := heps e hb
    rwa [abs_of_pos hpos] at this
  have hd_cents : ∀ e ∈ debtorsInit (calculateNetBalances rs), isCents e.balance := by
    intro e he
    obtain ⟨b, hb, hbneg, -, -, hbal⟩ := debtorsInit_mem he
    rw [hbal]
    exact (hcents b hb).abs
  have hc_cents : ∀ e ∈ creditorsInit (calculateNetBalances rs), isCents e.balance := by
    intro e he
    exact hcents e (creditorsInit_mem he).1
  have hdisj : ∀ e ∈ debtorsInit (calculateNetBalances rs),
      ∀ x ∈ creditorsInit (calculateNetBalances rs), e.userId ≠ x.userId := by
    intro e he x hx
    obtain ⟨b, hb, hbneg, hbid, -, -⟩ := debtorsInit_mem he
    obtain ⟨hxb, hxpos⟩ := creditorsInit_mem hx
    have hbx : b ≠ x := by
      intro hbx
      rw [hbx] at hbneg
      linarith
    rw [hbid]
    exact hpair.forall (fun a b hab => hab.symm) hb hxb hbx
  obtain ⟨hfinal, hled, htot, hbdf, hbcf⟩ :=
    planLoop_master
      ((debtorsInit (calculateNetBalances rs)).length +
        (creditorsInit (calculateNetBalances rs)).length)
      (debtorsInit (calculateNetBalances rs)) (creditorsInit (calculateNetBalances rs))
      (le_refl _) hd_eps hc_eps hd_cents hc_cents hdisj
  have hamts := planLoop_amounts
    ((debtorsInit (calculateNetBalances rs)).length +
      (creditorsInit (calculateNetBalances rs)).length)
    (debtorsInit (calculateNetBalances rs)) (creditorsInit (calculateNetBalances rs))
    hd_cents hc_cents
  rcases hP : planLoop
      ((debtorsInit (calculateNetBalances rs)).length +
        (creditorsInit (calculateNetBalances rs)).length)
      (debtorsInit (calculateNetBalances rs)) (creditorsInit (calculateNetBalances rs))
    with ⟨S, df, cf⟩
  simp only [hP] at hfinal hled htot hbdf hbcf hamts
  have hrawS : rawSettlements (calculateNetBalances rs) = S := by
    unfold rawSettlements
    rw [hP]
  -- the final validity filter keeps every settlement
  have hout : (getOptimizedSettlements rs).1 = S := by
    rw [getOptimizedSettlements_fst, planFromBalances_of_ne hBne, hrawS]
    apply List.filter_eq_self.mpr
    intro s hs
    have hs₀ : s ∈ (planLoop
        ((debtorsInit (calculateNetBalances rs)).length +
          (creditorsInit (calculateNetBalances rs)).length)
        (debtorsInit (calculateNetBalances rs))
        (creditorsInit (calculateNetBalances rs))).1 := by
      rw [hP]
      exact hs
    obtain ⟨hab, -, ⟨ed, hed, hfid, hfem⟩, ⟨ec, hec, htid, htem⟩⟩ :=
      planLoop_emit _ _ _ s hs₀
    obtain ⟨bd, hbd, -, hbdid, hbdem, -⟩ := debtorsInit_mem hed
    obtain ⟨hbc, -⟩ := creditorsInit_mem hec
    have hmail2 : s.from_.email ≠ s.to_.email := by
      rw [hfem, htem, hbdem]
      apply hmail bd hbd ec hbc
      rw [← hbdid, ← hfid, ← htid]
      exact hab
    have hamt : eps ≤ s.amount := hamts s hs
    simp only [decide_eq_true_eq]
    exact ⟨hmail2, hamt⟩
  -- per-participant accounting
  have hkeyB : keyBal (calculateNetBalances rs) u.userId = u.balance :=
    keyBal_of_pairwise _ hpair hu
  have hsplitK : keyBal (creditorsInit (calculateNetBalances rs)) u.userId -
      keyBal (debtorsInit (calculateNetBalances rs)) u.userId =
        keyBal (calculateNetBalances rs) u.userId :=
    keyBal_init_split _ hne u.userId
  have hsplitT : totalBal (creditorsInit (calculateNetBalances rs)) -
      totalBal (debtorsInit (calculateNetBalances rs)) =
        totalBal (calculateNetBalances rs) :=
    totalBal_init_split _ hne
  rw [hout]
  have hledu := hled u.userId
  -- bound the residual balance left in the final arrays
  have hres : |keyBal cf u.userId - keyBal df u.userId| ≤ eps := by
    rcases hfinal with hdf | hcf
    · subst hdf
      rw [keyBal_nil, totalBal_nil] at *
      have h1 : 0 ≤ keyBal cf u.userId := keyBal_nonneg cf u.userId hbcf
      have h2 : keyBal cf u.userId ≤ totalBal cf := keyBal_le_totalBal cf u.userId hbcf
      have h3 : totalBal cf = totalBal (calculateNetBalances rs) := by linarith
      have h4 : totalBal (calculateNetBalances rs) ≤ eps :=
        le_trans (le_abs_self _) hcons
      rw [abs_of_nonneg (by linarith)]
      linarith
    · subst hcf
      rw [keyBal_nil, totalBal_nil] at *
      have h1 : 0 ≤ keyBal df u.userId := keyBal_nonneg df u.userId hbdf
      have h2 : keyBal df u.userId ≤ totalBal df := keyBal_le_totalBal df u.userId hbdf
      have h3 : totalBal df = -totalBal (calculateNetBalances rs) := by linarith
      have h4 : -totalBal (calculateNetBalances rs) ≤ eps :=
        le_trans (neg_le_abs _) hcons
      rw [abs_of_nonpos (by linarith)]
      linarith
  have hval : signedSum S u.userId - u.balance =
      -(keyBal cf u.userId - keyBal df u.userId) := by
    rw [hledu, ← hkeyB, ← hsplitK]
    ring
  rw [hval, abs_neg]
  exact hres

/-- Witness for C3: on the single 30-unit request from B to A (distinct
emails) the plan is `[A pays B 30]`, and the signed total of A −30 matches the net of A
balance exactly. -/
theorem plan_soundness_witness :
    |signedSum ((getOptimizedSettlements [basicRequest]).1) "A" - (-30)| ≤ eps := by
  have h := plan_soundness [basicRequest] (by decide) ⟨"A", "a@x", -30⟩ (by decide)
  exact h

/-- A pending self-request: A requests 10 from A. -/
def selfRequest : Request :=
  ⟨"r9", 10, "A", "a@x", ⟨"A", "a@x"⟩, RStatus.pending⟩

/-- C5: a pending obligation that is a self-request or carries a non-positive
amount is skipped by the accumulation pass — it changes no balance — and the
remaining obligations are still aggregated exactly as if it were absent. -/
theorem skipped_obligations_inert (r : Request)
    (hp : r.status = RStatus.pending)
    (hskip : r.amount ≤ 0 ∨ r.created_by = r.request_to.id) :
    (∀ m : List UserBalance, applyRequest m r = m) ∧
      ∀ (m : List UserBalance) (pre post : List Request),
        List.foldl applyRequest m (pre ++ r :: post) =
          List.foldl applyRequest m (pre ++ post) := by
  have hskip' : ∀ m, applyRequest m r = m := by
    intro m
    unfold applyRequest
    rw [if_pos hp]
    rcases hskip with h | h
    · rw [if_pos h]
    · by_cases ha : r.amount ≤ 0
      · rw [if_pos ha]
      · rw [if_neg ha, if_pos h]
  refine ⟨hskip', ?_⟩
  intro m pre post
  rw [List.foldl_append, List.foldl_append, List.foldl_cons, hskip']

/-- Witness for C5: inserting the self-request between two real requests
leaves the accumulation unchanged. -/
theorem skipped_obligations_inert_witness :
    List.foldl applyRequest [] ([basicRequest] ++ selfRequest :: []) =
      List.foldl applyRequest [] ([basicRequest] ++ []) :=
  (skipped_obligations_inert selfRequest rfl (Or.inr rfl)).2 [] [basicRequest] []

/-- A single obligation of amount 0.005: A owes B half a cent (B created the
request towards A). -/
def halfCentRequest : Request :=
  ⟨"r1", 1 / 200, "B", "b@x", ⟨"A", "a@x"⟩, RStatus.pending⟩

/-- Counterexample for C6 as stated: the half-cent obligation does NOT round
below the epsilon — `toFixed(2)` rounds 0.005 up to 0.01 — so the returned
balance set holds both participants at ±0.01 and the plan is a single 0.01
payment, not the empty plan. -/
theorem epsilon_drop_counterexample :
    calculateNetBalances [halfCentRequest] =
        [⟨"B", "b@x", 1 / 100⟩, ⟨"A", "a@x", -(1 / 100)⟩] ∧
      calculateNetBalances [halfCentRequest] ≠ [] ∧
      (getOptimizedSettlements [halfCentRequest]).1 =
        [⟨⟨"A", "a@x"⟩, ⟨"B", "b@x"⟩, 1 / 100⟩] :=
  ⟨by decide, by decide, by decide⟩

/-- C6 (amended): when the conservation check passes, aggregation returns
exactly the rounded accumulator entries whose net magnitude is at least 0.01
(everything below the epsilon is dropped, everything at or above it is kept);
the half-cent obligation rounds UP to 0.01, so both participants are kept and
the plan is the single payment `A pays B 0.01`. -/
theorem epsilon_drop (rs : List Request)
    (hgap : ¬eps < |totalCredits (rawNetBalances rs) - totalDebits (rawNetBalances rs)|) :
    (∀ e : UserBalance, e ∈ calculateNetBalances rs ↔
        e ∈ ((rs.foldl applyRequest (initBalances rs)).map
          fun x => { x with balance := round2 x.balance }) ∧ eps ≤ |e.balance|) ∧
      calculateNetBalances [halfCentRequest] =
        [⟨"B", "b@x", 1 / 100⟩, ⟨"A", "a@x", -(1 / 100)⟩] ∧
      (getOptimizedSettlements [halfCentRequest]).1 =
        [⟨⟨"A", "a@x"⟩, ⟨"B", "b@x"⟩, 1 / 100⟩] := by
  refine ⟨?_, by decide, by decide⟩
  intro e
  have hcalc : calculateNetBalances rs = rawNetBalances rs := by
    rw [calculateNetBalances_def, if_neg hgap]
  rw [hcalc]
  unfold rawNetBalances
  rw [List.mem_filter]
  simp only [decide_eq_true_eq]

/-- Witness for C6: the amended claim applied to the half-cent request. -/
theorem epsilon_drop_witness :
    calculateNetBalances [halfCentRequest] =
      [⟨"B", "b@x", 1 / 100⟩, ⟨"A", "a@x", -(1 / 100)⟩] :=
  (epsilon_drop [halfCentRequest] (by decide)).2.1

/-! ### Sortedness and stability of the re-sort (C7) -/

theorem insertDesc_mem (x : UserBalance) (l : List UserBalance) (z : UserBalance) :
    z ∈ insertDesc x l ↔ z = x ∨ z ∈ l := by
  rw [(insertDesc_perm x l).mem_iff]
  simp

theorem insertDesc_sorted {x : UserBalance} {l : List UserBalance}
    (h : l.Pairwise fun a b => b.balance ≤ a.balance) :
    (insertDesc x l).Pairwise fun a b => b.balance ≤ a.balance := by
  induction l with
  | nil => simp [insertDesc]
  | cons y ys ih =>
    rw [List.pairwise_cons] at h
    unfold insertDesc
    by_cases hxy : x.balance ≤ y.balance
    · rw [if_pos hxy]
      rw [List.pairwise_cons]
      refine ⟨?_, ih h.2⟩
      intro z hz
      rcases (insertDesc_mem x ys z).mp hz with rfl | hz
      · exact hxy
      · exact h.1 z hz
    · rw [if_neg hxy]
      rw [List.pairwise_cons]
      refine ⟨?_, ?_⟩
      · intro z hz
        rcases List.mem_cons.mp hz with rfl | hz
        · linarith [not_le.mp hxy]
        · linarith [h.1 z hz, not_le.mp hxy]
      · rw [List.pairwise_cons]
        exact h
  
theorem sortDesc_sorted (l : List UserBalance) :
    (sortDesc l).Pairwise fun a b => b.balance ≤ a.balance := by
  unfold sortDesc
  suffices h : ∀ acc : List UserBalance,
      (acc.Pairwise fun a b => b.balance ≤ a.balance) →
      ((l.foldl (fun acc x => insertDesc x acc) acc).Pairwise
        fun a b => b.balance ≤ a.balance) by
    exact h [] (by simp)
  induction l with
  | nil => intro acc hacc; exact hacc
  | cons x xs ih =>
    intro acc hacc
    simp only [List.foldl_cons]
    exact ih _ (insertDesc_sorted hacc)

theorem insertDesc_filter (x : UserBalance) (l : List UserBalance) (q : ℚ)
    (hsort : l.Pairwise fun a b => b.balance ≤ a.balance) :
    (insertDesc x l).filter (fun e => e.balance = q) =
      if x.balance = q
      then (l.filter fun e => e.balance = q) ++ [x]
      else l.filter fun e => e.balance = q := by
  induction l with
  | nil =>
    by_cases hx : x.balance = q
    · simp [insertDesc, List.filter_cons, hx]
    · simp [insertDesc, List.filter_cons, hx]
  | cons y ys ih =>
    rw [List.pairwise_cons] at hsort
    unfold insertDesc
    by_cases hxy : x.balance ≤ y.balance
    · rw [if_pos hxy]
      by_cases hy : y.balance = q <;> by_cases hx : x.balance = q <;>
        simp [List.filter_cons, hy, hx, ih hsort.2]
    · rw [if_neg hxy]
      have hlt : y.balance < x.balance := not_le.mp hxy
      by_cases hx : x.balance = q
      · have hnone : (y :: ys).filter (fun e => e.balance = q) = [] := by
          apply List.filter_eq_nil_iff.mpr
          intro a ha
          simp only [decide_eq_true_eq]
          intro hq
          rcases List.mem_cons.mp ha with rfl | ha2
          · rw [hq] at hlt
            rw [hx] at hlt
            exact lt_irrefl q hlt
          · have h2 := hsort.1 a ha2
            rw [hq] at h2
            linarith
        rw [if_pos hx]
        rw [hnone]
        have h1 : (decide (x.balance = q)) = true := by simp [hx]
        rw [List.filter_cons, h1]
        rw [if_pos rfl, hnone]
        rfl
      · rw [if_neg hx]
        have h1 : (decide (x.balance = q)) = false := by simp [hx]
        rw [List.filter_cons, h1]
        simp

theorem sortDesc_filter (l : List UserBalance) (q : ℚ) :
    (sortDesc l).filter (fun e => e.balance = q) = l.filter fun e => e.balance = q := by
  unfold sortDesc
  suffices h : ∀ acc : List UserBalance,
      (acc.Pairwise fun a b => b.balance ≤ a.balance) →
      (l.foldl (fun acc x => insertDesc x acc) acc).filter (fun e => e.balance = q) =
        (acc.filter fun e => e.balance = q) ++ (l.filter fun e => e.balance = q) by
    simpa using h [] (by simp)
  induction l with
  | nil => intro acc hacc; simp
  | cons x xs ih =>
    intro acc hacc
    simp only [List.foldl_cons]
    rw [ih _ (insertDesc_sorted hacc), insertDesc_filter x acc q hacc]
    by_cases hx : x.balance = q
    · have h1 : (decide (x.balance = q)) = true := by simp [hx]
      rw [if_pos hx, List.filter_cons, h1]
      simp
    · have h1 : (decide (x.balance = q)) = false := by simp [hx]
      rw [if_neg hx, List.filter_cons, h1]
      simp

/-- Scenario 3 balance set in request order: A −100, then B +50, then C +50. -/
def scenario3Balances : List UserBalance :=
  [⟨"A", "a@x", -100⟩, ⟨"B", "b@x", 50⟩, ⟨"C", "c@x", 50⟩]

/-- The same balance set with the two tied creditors in the opposite order. -/
def scenario3BalancesRev : List UserBalance :=
  [⟨"A", "a@x", -100⟩, ⟨"C", "c@x", 50⟩, ⟨"B", "b@x", 50⟩]

/-- Counterexample for C7 as stated: for the balances A:−100, B:+50, C:+50
presented with C before B, the tie between the two +50 creditors is NOT broken
by participant id ascending — the stable sort keeps C first, and the plan is
`[A pays C 50, A pays B 50]`, not `[A pays B 50, A pays C 50]`. -/
theorem tiebreak_counterexample :
    planFromBalances scenario3BalancesRev =
        [⟨⟨"A", "a@x"⟩, ⟨"C", "c@x"⟩, 50⟩, ⟨⟨"A", "a@x"⟩, ⟨"B", "b@x"⟩, 50⟩] ∧
      planFromBalances scenario3BalancesRev ≠
        [⟨⟨"A", "a@x"⟩, ⟨"B", "b@x"⟩, 50⟩, ⟨⟨"A", "a@x"⟩, ⟨"C", "c@x"⟩, 50⟩] :=
  ⟨by decide, by decide⟩

/-- C7 (amended): each iteration re-sorts descending by magnitude with a
stable sort — entries of equal magnitude keep their relative order from the
balance array, not participant-id order — so the output is deterministic in
the balance array; with B listed before C the scenario plan is exactly
`[A pays B 50, A pays C 50]`. -/
theorem deterministic_resort (l : List UserBalance) (q : ℚ) :
    ((sortDesc l).Pairwise fun a b => b.balance ≤ a.balance) ∧
      ((sortDesc l).filter (fun e => e.balance = q) = l.filter fun e => e.balance = q) ∧
      planFromBalances scenario3Balances =
        [⟨⟨"A", "a@x"⟩, ⟨"B", "b@x"⟩, 50⟩, ⟨⟨"A", "a@x"⟩, ⟨"C", "c@x"⟩, 50⟩] :=
  ⟨sortDesc_sorted l, sortDesc_filter l q, by decide⟩

/-- Counterexample for C8 as stated: computing the plan for the single
pending self-request yields an empty plan, and `getOptimizedSettlements`
itself immediately marks that pending request as settled — the obligation
state does not survive the computation. -/
theorem settles_pending_counterexample :
    (getOptimizedSettlements [selfRequest]).2 = [("r9", "A")] ∧
      (getOptimizedSettlements [selfRequest]).2 ≠ [] :=
  ⟨by decide, by decide⟩

/-- C8 (amended): `getOptimizedSettlements` leaves obligation state unchanged
exactly when it returns a non-empty plan; whenever the returned plan is empty
(empty balance set or fully filtered plan) it itself marks every pending
request as settled. -/
theorem engine_write_backs (rs : List Request) :
    (getOptimizedSettlements rs).2 =
      if (getOptimizedSettlements rs).1 = [] then pendingWrites rs else [] := by
  rw [getOptimizedSettlements_def]
  by_cases h : (planFromBalances (calculateNetBalances rs)).isEmpty = true
  · rw [if_pos h]
    have he : planFromBalances (calculateNetBalances rs) = [] := by
      simpa [List.isEmpty_iff] using h
    simp [he]
  · rw [if_neg h]
    have he : planFromBalances (calculateNetBalances rs) ≠ [] := by
      intro he
      exact h (by simp [he])
    simp [he]

/-- C9: a failed fetch of the group requests is absorbed — the aggregator and
the planner both return the empty list rather than propagating the error —
and the rest of the engine is a total function of the fetched list, so no
internal step can throw. -/
theorem errors_absorbed (msg : String) :
    getGroupRequests (Except.error msg) = [] ∧
      calculateNetBalancesE (Except.error msg) = [] ∧
      getOptimizedSettlementsE (Except.error msg) = ([], []) ∧
      ∀ f : Except String (List Request),
        getOptimizedSettlementsE f = getOptimizedSettlements (getGroupRequests f) := by
  refine ⟨rfl, ?_, ?_, fun f => rfl⟩
  · show calculateNetBalances [] = []
    decide
  · show getOptimizedSettlements [] = ([], [])
    decide

/-- C10: the final output filter compares email labels: no settlement whose
endpoints share an email survives into the returned plan; concretely, for the
request between distinct ids u1 and u2 that share the email x@x, the matching
loop computes the settlement `u2 pays u1 30`, yet the returned plan is empty. -/
theorem email_filter_drops (rs : List Request) :
    (∀ s ∈ (getOptimizedSettlements rs).1, s.from_.email ≠ s.to_.email) ∧
      rawSettlements (calculateNetBalances [sharedEmailRequest]) =
        [⟨⟨"u2", "x@x"⟩, ⟨"u1", "x@x"⟩, 30⟩] ∧
      (getOptimizedSettlements [sharedEmailRequest]).1 = [] := by
  refine ⟨?_, by decide, by decide⟩
  intro s hs
  rw [getOptimizedSettlements_fst] at hs
  by_cases hB : calculateNetBalances rs = []
  · rw [hB] at hs
    simp [planFromBalances, rawSettlements] at hs
  · rw [planFromBalances_of_ne hB] at hs
    have hpred := List.of_mem_filter hs
    simp only [decide_eq_true_eq] at hpred
    exact hpred.1

/-- Witness for C10: the email-difference guarantee applied to the concrete
plan `[A pays B 30]`. -/
theorem email_filter_drops_witness :
    (⟨⟨"A", "a@x"⟩, ⟨"B", "b@x"⟩, 30⟩ : SettlementTransaction).from_.email ≠ "b@x" :=
  (email_filter_drops [basicRequest]).1 _ (by decide)

end SettleUp
